import Mathlib

/-!
Verification development for the Kibana mappings-editor field-normalization
module (`lib/utils.ts` of the mappings editor).  The module flattens a
recursive, user-authored index-mapping tree into a flat map keyed by
generated identifiers (`normalize`), converts it back (`deNormalize`),
resolves alias paths by id, tracks nesting depth, and offers traversal
helpers over the flat representation.

The embedding below follows the TypeScript source closely:

* JavaScript objects used as string-keyed maps become insertion-ordered
  association lists (`List (String × _)`); updating an existing key keeps
  its position, a new key is appended — the same order semantics JS gives
  to non-integer-indexed keys, which the source relies on via
  `Object.entries` / `Object.values`.
* The `uuid` id generator becomes a deterministic counter producing
  pairwise-distinct string ids (the code needs nothing but uniqueness).
* Recursive walks whose termination is not structural (they chase ids
  through the flat map, which an adversarial value could make cyclic)
  take a fuel parameter; running out of fuel is reported as a distinct
  outcome, never confused with normal returns or runtime type errors.
* JavaScript runtime `TypeError`s (property access on `undefined`) are
  modelled explicitly as an error outcome.
-/

namespace MappingsEditor

/-- Outcome of running an embedded JS function that may throw a runtime
`TypeError` or fail to terminate (modelled by fuel exhaustion). -/
inductive JsResult (α : Type) where
  | ok (a : α)
  | typeError
  | outOfFuel
deriving DecidableEq, Repr

/-- The two possible child-container keys of a mapping field
(`'properties'` for object/nested types, `'fields'` for multi-fields). -/
inductive ChildFieldName where
  | properties
  | fields
deriving DecidableEq, Repr

/-- A user-authored schema node (the value part of one entry of a
`properties`/`fields` object): a `type` tag, an optional `path` (only
meaningful for alias fields), the two possible child containers, and the
remaining scalar parameters (`extra`; keys are assumed distinct from the
modelled `name`/`type`/`path`/`properties`/`fields` keys). -/
inductive FieldSrc where
  | mk (type : Option String) (path : Option String)
       (properties : Option (List (String × FieldSrc)))
       (fields : Option (List (String × FieldSrc)))
       (extra : List (String × String))

/-- The recursive input shape of `normalize`: field name to definition. -/
abbrev Fields := List (String × FieldSrc)

def FieldSrc.type : FieldSrc → Option String
  | .mk t _ _ _ _ => t

def FieldSrc.path : FieldSrc → Option String
  | .mk _ p _ _ _ => p

def FieldSrc.properties : FieldSrc → Option Fields
  | .mk _ _ props _ _ => props

def FieldSrc.fields : FieldSrc → Option Fields
  | .mk _ _ _ flds _ => flds

def FieldSrc.extra : FieldSrc → List (String × String)
  | .mk _ _ _ _ e => e

/-- Replace the `type` tag (used for the `type = 'object'` inference). -/
def FieldSrc.withType (f : FieldSrc) (t : Option String) : FieldSrc :=
  match f with
  | .mk _ p props flds e => .mk t p props flds e

mutual

/-- Structural size of a schema node (used as a fuel bound: the recursion
depth of any walk of the tree is below it). -/
def FieldSrc.size : FieldSrc → Nat
  | .mk _ _ props flds _ => 1 + sizeOptF props + sizeOptF flds

/-- Size of an optional child container. -/
def sizeOptF : Option (List (String × FieldSrc)) → Nat
  | none => 0
  | some l => sizeListF l

/-- Size of a list of named schema nodes. -/
def sizeListF : List (String × FieldSrc) → Nat
  | [] => 0
  | kv :: r => FieldSrc.size kv.2 + sizeListF r + 1

end

mutual

/-- Number of schema nodes in a tree (one per named field; `normalize`
draws exactly one id per node on well-formed input, so this is also the
entry count of the produced flat map). -/
def countF : FieldSrc → Nat
  | .mk _ _ props flds _ => 1 + countOptF props + countOptF flds

/-- Node count of an optional child container. -/
def countOptF : Option (List (String × FieldSrc)) → Nat
  | none => 0
  | some l => countListF l

/-- Node count of a list of named schema nodes. -/
def countListF : List (String × FieldSrc) → Nat
  | [] => 0
  | kv :: r => countF kv.2 + countListF r

end

/-- `source` of a normalized field: the original definition with the child
containers stripped and the field name added (`{ name, ...rest }`). -/
structure FieldSource where
  name : String
  type : Option String
  path : Option String
  extra : List (String × String)
deriving DecidableEq, Repr

/-- The flattened, id-addressed representation of one field. -/
structure NormalizedField where
  id : String
  parentId : Option String
  nestedDepth : Nat
  isMultiField : Bool
  path : List String
  source : FieldSource
  childFieldsName : Option ChildFieldName
  canHaveChildFields : Bool
  hasChildFields : Bool
  canHaveMultiFields : Bool
  hasMultiFields : Bool
  isExpanded : Bool
  childFields : Option (List String)
deriving DecidableEq, Repr

/-- The meta information computed by `getFieldMeta` (`childFields` is
attached afterwards by `normalizeFields`, mirroring the JS mutation). -/
structure FieldMeta where
  childFieldsName : Option ChildFieldName
  canHaveChildFields : Bool
  hasChildFields : Bool
  canHaveMultiFields : Bool
  hasMultiFields : Bool
  isExpanded : Bool
  childFields : Option (List String)
deriving DecidableEq, Repr

/-- `byId` map: insertion-ordered association list keyed by field id. -/
abbrev ById := List (String × NormalizedField)

/-- `aliases` map: target field id to list of alias field ids. -/
abbrev Aliases := List (String × List String)

/-- JS object property read `m[k]` (first entry with the key; a JS
object never holds a key twice). -/
def olookup {α : Type} (m : List (String × α)) (k : String) : Option α :=
  match m with
  | [] => none
  | kv :: rest => if kv.1 == k then some kv.2 else olookup rest k

/-- JS object property write `m[k] = v`: an existing key keeps its
position, a fresh key is appended. -/
def oset {α : Type} (m : List (String × α)) (k : String) (v : α) :
    List (String × α) :=
  match m with
  | [] => [(k, v)]
  | kv :: rest => if kv.1 == k then (k, v) :: rest else kv :: oset rest k v

/-- The deterministic stand-in for the `uuid` generator: the `n`-th id is
an underscore followed by `n` further underscores, so distinct counters
give distinct ids. -/
def mkId (n : Nat) : String :=
  ⟨'_' :: List.replicate n '_'⟩

/-- `path.join('.')`. -/
def joinPath (segments : List String) : String :=
  String.intercalate "." segments

/-- Lexicographic comparison of character lists by code point (the JS
string comparison used by the sibling-sort comparator). -/
def charsLe : List Char → List Char → Bool
  | [], _ => true
  | _ :: _, [] => false
  | a :: as, b :: bs =>
    if a.toNat < b.toNat then true
    else if b.toNat < a.toNat then false
    else charsLe as bs

/-- `a <= b` on strings, by code point. -/
def strLe (a b : String) : Bool :=
  charsLe a.data b.data

/-- Insert into a sorted list, before the first element not below the
inserted one (stable). -/
def insertSorted {α : Type} (le : α → α → Bool) (x : α) :
    List α → List α
  | [] => [x]
  | y :: ys => if le x y then x :: y :: ys else y :: insertSorted le x ys

/-- Stable insertion sort. -/
def insertionSortBy {α : Type} (le : α → α → Bool) : List α → List α
  | [] => []
  | x :: xs => insertSorted le x (insertionSortBy le xs)

/-- The JS comparator `(a > b ? 1 : a < b ? -1 : 0)` sorts sibling names
ascending; `Object.entries(...).sort(...)` is modelled by a stable
insertion sort on the entry keys. -/
def sortByName {α : Type} (l : List (String × α)) : List (String × α) :=
  insertionSortBy (fun a b => strLe a.1 b.1) l

/-! ### `getChildFieldsName` and `getFieldMeta` -/

/-- Data types that can never have child fields (`fieldsWithoutMultiFields`
in the source). -/
def fieldsWithoutMultiFields : List String :=
  ["aggregate_metric_double", "constant_keyword", "flattened", "geo_shape",
   "join", "percolator", "point", "shape"]

/-- Which key holds a data type's children: none for the deny-list,
`properties` for object/nested, `fields` for everything else. -/
def getChildFieldsName (dataType : String) : Option ChildFieldName :=
  if fieldsWithoutMultiFields.contains dataType then
    none
  else if dataType == "object" || dataType == "nested" then
    some ChildFieldName.properties
  else
    some ChildFieldName.fields

/-- `field[childFieldsName]` (`none` when `childFieldsName` is undefined,
matching `field[undefined]`). -/
def containerOf (f : FieldSrc) : Option ChildFieldName → Option Fields
  | some ChildFieldName.properties => f.properties
  | some ChildFieldName.fields => f.fields
  | none => none

/-- `Boolean(field[childFieldsName!]) && Object.keys(...).length > 0`. -/
def containerNonempty (f : FieldSrc) (cfn : Option ChildFieldName) : Bool :=
  match containerOf f cfn with
  | some l => !l.isEmpty
  | none => false

/-- `getFieldMeta(field, isMultiField)`.  A `field.type` of `none` models
the JS `undefined`, for which `getChildFieldsName` returns `'fields'`
(the deny-list misses it and it is neither `'object'` nor `'nested'`). -/
def getFieldMeta (f : FieldSrc) (isMultiField : Bool) : FieldMeta :=
  let childFieldsName :=
    match f.type with
    | some t => getChildFieldsName t
    | none => some ChildFieldName.fields
  let canHaveChildFields :=
    if isMultiField then false
    else childFieldsName == some ChildFieldName.properties
  let hasChildFields :=
    if isMultiField then false
    else canHaveChildFields && containerNonempty f childFieldsName
  let canHaveMultiFields :=
    if isMultiField then false
    else childFieldsName == some ChildFieldName.fields
  let hasMultiFields :=
    if isMultiField then false
    else canHaveMultiFields && containerNonempty f childFieldsName
  { childFieldsName := childFieldsName
    canHaveChildFields := canHaveChildFields
    hasChildFields := hasChildFields
    canHaveMultiFields := canHaveMultiFields
    hasMultiFields := hasMultiFields
    isExpanded := false
    childFields := none }

/-! ### `normalize` -/

/-- The mutable cell state of one `normalize` run: the uuid counter and
the running `maxNestedDepth`. -/
structure NormGen where
  nextId : Nat
  maxNestedDepth : Nat
deriving DecidableEq, Repr

/-- The `type = 'object'` inference: when `type` is absent but
`properties` are present, the editor adds the type. -/
def inferType (v : FieldSrc) : FieldSrc :=
  v.withType
    (if v.type.isNone && v.properties.isSome then some "object" else v.type)

/-- Assemble the `NormalizedField` record appended per entry (the
`{ id, parentId, nestedDepth, isMultiField, path, source, ...meta }`
object, with `source` the field minus its child containers plus the
name). -/
def mkNormField (id : String) (parentId : Option String)
    (nestedDepth : Nat) (isMultiField : Bool) (paths : List String)
    (propName : String) (field : FieldSrc) (meta : FieldMeta)
    (childIds : Option (List String)) : NormalizedField :=
  { id := id, parentId := parentId, nestedDepth := nestedDepth
    isMultiField := isMultiField, path := paths ++ [propName]
    source := { name := propName, type := field.type, path := field.path
                extra := field.extra }
    childFieldsName := meta.childFieldsName
    canHaveChildFields := meta.canHaveChildFields
    hasChildFields := meta.hasChildFields
    canHaveMultiFields := meta.canHaveMultiFields
    hasMultiFields := meta.hasMultiFields
    isExpanded := false
    childFields := childIds }

/-- The depth passed to the children:
`meta.canHaveChildFields || meta.canHaveMultiFields ? nestedDepth + 1 :
nestedDepth`.  Note that whenever the recursion fires at all
(`hasChildFields || hasMultiFields`), one of the two capability flags is
set, so this always increments. -/
def nextNestedDepth (meta : FieldMeta) (nestedDepth : Nat) : Nat :=
  if meta.canHaveChildFields || meta.canHaveMultiFields then
    nestedDepth + 1
  else nestedDepth

/-- The recursive worker `normalizeFields`.  It sorts the entries of
`props` by name, then reduces over them: per entry it draws a fresh id,
infers `type = 'object'` when the type is absent but `properties` exist,
computes the meta flags, recurses into the child container (collecting the
child ids into `meta.childFields`), strips the containers into `source`,
and appends the normalized field to the accumulated map.  Returns the
accumulated map, the ids of this level (the `arrayToKeepRef` contents), and
the generator state; `none` when the fuel (which only bounds the recursion
depth) runs out. -/
def normGo (fuel : Nat) (props : Fields) (dest : ById) (paths : List String)
    (nestedDepth : Nat) (isMultiField : Bool) (parentId : Option String)
    (g : NormGen) : Option (ById × List String × NormGen) :=
  match fuel with
  | 0 => none
  | fuel + 1 =>
    (sortByName props).foldl
      (fun acc entry =>
        match acc with
        | none => none
        | some (dest, ids, g) =>
          let id := mkId g.nextId
          let g := { g with nextId := g.nextId + 1 }
          let field := inferType entry.2
          let meta := getFieldMeta field isMultiField
          if meta.hasChildFields || meta.hasMultiFields then
            let nextDepth := nextNestedDepth meta nestedDepth
            let g := { g with
              maxNestedDepth := max g.maxNestedDepth nextDepth }
            match normGo fuel
                ((containerOf field meta.childFieldsName).getD [])
                dest (paths ++ [entry.1]) nextDepth
                meta.canHaveMultiFields (some id) g with
            | none => none
            | some (dest, childIds, g) =>
              some (oset dest id
                  (mkNormField id parentId nestedDepth isMultiField paths
                    entry.1 field meta (some childIds)),
                ids ++ [id], g)
          else
            some (oset dest id
                (mkNormField id parentId nestedDepth isMultiField paths
                  entry.1 field meta none),
              ids ++ [id], g))
      (some (dest, [], g))

/-- One step of the `reduce` inside `normalizeFields` (named so that the
recursion lemmas can speak about it; `normGo_succ` equates the two by
definitional unfolding). -/
def normStep (fuel : Nat) (paths : List String) (nestedDepth : Nat)
    (isMultiField : Bool) (parentId : Option String)
    (acc : Option (ById × List String × NormGen)) (entry : String × FieldSrc) :
    Option (ById × List String × NormGen) :=
  match acc with
  | none => none
  | some (dest, ids, g) =>
    let id := mkId g.nextId
    let g := { g with nextId := g.nextId + 1 }
    let field := inferType entry.2
    let meta := getFieldMeta field isMultiField
    if meta.hasChildFields || meta.hasMultiFields then
      let nextDepth := nextNestedDepth meta nestedDepth
      let g := { g with
        maxNestedDepth := max g.maxNestedDepth nextDepth }
      match normGo fuel
          ((containerOf field meta.childFieldsName).getD [])
          dest (paths ++ [entry.1]) nextDepth
          meta.canHaveMultiFields (some id) g with
      | none => none
      | some (dest, childIds, g) =>
        some (oset dest id
            (mkNormField id parentId nestedDepth isMultiField paths
              entry.1 field meta (some childIds)),
          ids ++ [id], g)
    else
      some (oset dest id
          (mkNormField id parentId nestedDepth isMultiField paths
            entry.1 field meta none),
        ids ++ [id], g)

/-- One step of `replaceAliasPathByAliasId` for the entry `(id, _)`: read
the current field, and when it is an alias whose declared `source.path`
matches the dotted position path of some field (first match wins),
rewrite `source.path` to that target's `id` and record the alias id under
the target id. -/
def aliasStep (acc : Aliases × ById) (entry : String × NormalizedField) :
    Aliases × ById :=
  match olookup acc.2 entry.1 with
  | none => acc
  | some field =>
    if field.source.type == some "alias" then
      match field.source.path with
      | none => acc
      | some declared =>
        match acc.2.find? (fun kv => joinPath kv.2.path == declared) with
        | none => acc
        | some target =>
          (oset acc.1 target.2.id
             ((olookup acc.1 target.2.id).getD [] ++ [entry.1]),
           oset acc.2 entry.1
             { field with
               source := { field.source with path := some target.2.id } })
    else acc

/-- `replaceAliasPathByAliasId`: walk the entries of `byId`, resolving
each alias's declared path to the id of the first field whose dotted
position path matches, and collecting the reverse `aliases` map. -/
def replaceAliasPathByAliasId (byId : ById) : Aliases × ById :=
  byId.foldl aliasStep (([] : Aliases), byId)

/-- The aggregate produced by `normalize`. -/
structure NormalizedFields where
  byId : ById
  aliases : Aliases
  rootLevelFields : List String
  maxNestedDepth : Nat
deriving DecidableEq, Repr

/-- The intermediate map produced by the recursive walk of `normalize`,
before the alias pass (exposed for stating alias-resolution claims).
The fuel `sizeListF m + 1` always suffices (see `normGo_isSome`), so the
`getD` default is never returned. -/
def normalizePre (m : Fields) : ById × List String × NormGen :=
  (normGo (sizeListF m + 1) m [] [] 0 false none ⟨0, 0⟩).getD ([], [], ⟨0, 0⟩)

/-- `normalize(fieldsToNormalize)`. -/
def normalize (m : Fields) : NormalizedFields :=
  let pre := normalizePre m
  let rep := replaceAliasPathByAliasId pre.1
  { byId := rep.2
    aliases := rep.1
    rootLevelFields := pre.2.1
    maxNestedDepth := pre.2.2.maxNestedDepth }

/-! ### `deNormalize` -/

/-- `replaceAliasIdByAliasPath`: for every entry of `aliases`, compute the
target's dotted path (empty string when the target id is absent) and
rewrite each listed alias field's `source.path` to it, skipping alias ids
absent from the map. -/
def replaceAliasIdByAliasPath (aliases : Aliases) (byId : ById) : ById :=
  aliases.foldl
    (fun updated entry =>
      let path :=
        match olookup updated entry.1 with
        | some target => joinPath target.path
        | none => ""
      entry.2.foldl
        (fun updated id =>
          match olookup updated id with
          | none => updated
          | some aliasField =>
            oset updated id
              { aliasField with
                source := { aliasField.source with path := some path } })
        updated)
    byId

/-- A normalized field with only `source.path` replaced (the shape both
alias passes write). -/
def pathUpd (f : NormalizedField) (p : Option String) : NormalizedField :=
  { f with source := { f.source with path := p } }

/-- The inner step of `replaceAliasIdByAliasPath`: rewrite one listed
alias field's `source.path` to the precomputed dotted path, skipping
absent ids. -/
def aliasUndoInner (p : String) (updated : ById) (id : String) : ById :=
  match olookup updated id with
  | none => updated
  | some aliasField =>
    oset updated id
      { aliasField with
        source := { aliasField.source with path := some p } }

/-- The outer step of `replaceAliasIdByAliasPath`: compute the target's
dotted path and rewrite every listed alias field. -/
def aliasUndoOuter (updated : ById) (entry : String × List String) : ById :=
  let p :=
    match olookup updated entry.1 with
    | some target => joinPath target.path
    | none => ""
  entry.2.foldl (aliasUndoInner p) updated

/-- Rebuild the source shape of one normalized field from its stripped
`source` (the `{ name, ...normalizedField }` destructuring drops `name`),
with a given child container placed under `childFieldsName`.  A
`childFieldsName` of `none` together with present children cannot arise
from `normalize` output (the JS would write under the literal key
`"undefined"`, which lies outside the modelled schema shapes; the children
are dropped here). -/
def rebuildField (source : FieldSource) (cfn : Option ChildFieldName)
    (children : Option Fields) : FieldSrc :=
  match children with
  | none => .mk source.type source.path none none source.extra
  | some cs =>
    match cfn with
    | some ChildFieldName.properties =>
      .mk source.type source.path (some cs) none source.extra
    | some ChildFieldName.fields =>
      .mk source.type source.path none (some cs) source.extra
    | none => .mk source.type source.path none none source.extra

/-- The recursive worker `deNormalizePaths` of `deNormalize`: walk a list
of ids, look each up in the flat map (a missing id is a JS `TypeError`:
the code destructures the lookup result), place the rebuilt field under
its name, and recurse into `childFields` when present.  The fuel only
bounds the recursion depth. -/
def deNormGo (byId : ById) (fuel : Nat) (ids : List String) (dest : Fields) :
    JsResult Fields :=
  match fuel with
  | 0 => .outOfFuel
  | fuel + 1 =>
    ids.foldl
      (fun acc id =>
        match acc with
        | .ok dest =>
          match olookup byId id with
          | none => .typeError
          | some f =>
            match f.childFields with
            | none => .ok (oset dest f.source.name
                (rebuildField f.source f.childFieldsName none))
            | some childIds =>
              match deNormGo byId fuel childIds [] with
              | .ok children =>
                .ok (oset dest f.source.name
                  (rebuildField f.source f.childFieldsName (some children)))
              | .typeError => .typeError
              | .outOfFuel => .outOfFuel
        | e => e)
      (.ok dest)

/-- One step of the fold inside `deNormalizePaths` (named so the
rebuild lemmas can speak about it; `deNormGo_succ` equates the two by
definitional unfolding). -/
def deNormStep (byId : ById) (fuel : Nat) (acc : JsResult Fields)
    (id : String) : JsResult Fields :=
  match acc with
  | .ok dest =>
    match olookup byId id with
    | none => .typeError
    | some f =>
      match f.childFields with
      | none => .ok (oset dest f.source.name
          (rebuildField f.source f.childFieldsName none))
      | some childIds =>
        match deNormGo byId fuel childIds [] with
        | .ok children =>
          .ok (oset dest f.source.name
            (rebuildField f.source f.childFieldsName (some children)))
        | .typeError => .typeError
        | .outOfFuel => .outOfFuel
  | e => e

/-- `deNormalize({ rootLevelFields, byId, aliases })`.  The internal fuel
`byId.length + 1` suffices for every map `normalize` can produce (the
recursion descends through pairwise-distinct entries); a cyclic map, on
which the JS recursion would not terminate, yields `outOfFuel`. -/
def deNormalize (fields : NormalizedFields) : JsResult Fields :=
  let serializedFieldsById :=
    replaceAliasIdByAliasPath fields.aliases fields.byId
  deNormGo serializedFieldsById (fields.byId.length + 1)
    fields.rootLevelFields []

/-! ### Recursive sibling sort (the reference point of the round-trip:
`deNormalize ∘ normalize` reorders siblings lexicographically and nothing
else on well-formed input) -/

mutual

/-- Sort every sibling list of a schema node lexicographically. -/
def sortTreeF : FieldSrc → FieldSrc
  | .mk t p props flds e => .mk t p (sortTreeOpt props) (sortTreeOpt flds) e

/-- Sort inside an optional child container. -/
def sortTreeOpt : Option Fields → Option Fields
  | none => none
  | some l => some (sortByName (sortTreeL l))

/-- Sort the subtrees of a list of named schema nodes. -/
def sortTreeL : Fields → Fields
  | [] => []
  | kv :: r => (kv.1, sortTreeF kv.2) :: sortTreeL r

end

/-- A mapping tree with every sibling list sorted lexicographically:
`m` "modulo lexicographic reordering of sibling keys". -/
def sortTree (m : Fields) : Fields :=
  sortByName (sortTreeL m)

/-! ### `updateFieldsPathAfterFieldNameChange` -/

/-- The recursive worker `updateFieldPath`: store the field under its
recomputed path, then recurse into the children looked up from the
*original* map.  A missing `childFields` array or a dangling child id is a
JS `TypeError` (`childFields!.map(...)` / property access on
`undefined`). -/
def updatePathGo (byId : ById) (fuel : Nat) (f : NormalizedField)
    (paths : List String) (updated : ById) : JsResult ById :=
  match fuel with
  | 0 => .outOfFuel
  | fuel + 1 =>
    let name := f.source.name
    let path := if paths.isEmpty then [name] else paths ++ [name]
    let updated := oset updated f.id { f with path := path }
    if f.hasChildFields || f.hasMultiFields then
      match f.childFields with
      | none => .typeError
      | some childIds =>
        childIds.foldl
          (fun acc childId =>
            match acc with
            | .ok updated =>
              match olookup byId childId with
              | none => .typeError
              | some childField =>
                updatePathGo byId fuel childField (paths ++ [name]) updated
            | e => e)
          (.ok updated)
    else .ok updated

/-- `updateFieldsPathAfterFieldNameChange(field, byId)`.  The initial
parent path read `byId[field.parentId].path` throws when `parentId` is
dangling (JS truthiness: an empty-string or absent `parentId` selects
`[]`).  Internal fuel `byId.length + 1` bounds the recursion depth;
a cyclic map yields `outOfFuel`. -/
def updateFieldsPathAfterFieldNameChange (field : NormalizedField)
    (byId : ById) : JsResult (List String × ById) :=
  let paths? : JsResult (List String) :=
    match field.parentId with
    | some pid =>
      if pid == "" then .ok []
      else
        match olookup byId pid with
        | some parent => .ok parent.path
        | none => .typeError
    | none => .ok []
  match paths? with
  | .ok paths =>
    match updatePathGo byId (byId.length + 1) field paths byId with
    | .ok updated =>
      match olookup updated field.id with
      | some f => .ok (f.path, updated)
      | none => .typeError
    | .typeError => .typeError
    | .outOfFuel => .outOfFuel
  | .typeError => .typeError
  | .outOfFuel => .outOfFuel

/-- One step of the fold inside `updateFieldPath` (named so the frame
lemmas can speak about it). -/
def updPathStep (byId : ById) (fuel : Nat) (base : List String)
    (acc : JsResult ById) (childId : String) : JsResult ById :=
  match acc with
  | .ok updated =>
    match olookup byId childId with
    | none => .typeError
    | some childField => updatePathGo byId fuel childField base updated
  | e => e

/-! ### Traversal helpers -/

/-- The recursive worker `getChildFields` of `getAllChildFields`: no
guard against dangling child ids — the child is pushed and recursed into,
and the recursion reads the flags of the lookup result, so a dangling id
is a JS `TypeError`. -/
def getAllChildFieldsGo (byId : ById) (fuel : Nat) (f : NormalizedField)
    (dest : List NormalizedField) : JsResult (List NormalizedField) :=
  match fuel with
  | 0 => .outOfFuel
  | fuel + 1 =>
    if f.hasChildFields || f.hasMultiFields then
      match f.childFields with
      | none => .typeError
      | some childIds =>
        childIds.foldl
          (fun acc childId =>
            match acc with
            | .ok dest =>
              match olookup byId childId with
              | none => .typeError
              | some childField =>
                getAllChildFieldsGo byId fuel childField (dest ++ [childField])
            | e => e)
          (.ok dest)
    else .ok dest

/-- `getAllChildFields(field, byId)`: depth-first pre-order list of all
descendants. -/
def getAllChildFields (field : NormalizedField) (byId : ById) :
    JsResult (List NormalizedField) :=
  getAllChildFieldsGo byId (byId.length + 1) field []

/-- `getAllDescendantAliases(field, fields)`: collect every alias id
targeting the field or a descendant; a recorded child id absent from
`byId` is skipped (the explicit `if (!fields.byId[id]) return;` guard). -/
def getAllDescendantAliasesGo (fields : NormalizedFields) (fuel : Nat)
    (f : NormalizedField) (aliasesIds : List String) :
    JsResult (List String) :=
  match fuel with
  | 0 => .outOfFuel
  | fuel + 1 =>
    let recorded := (olookup fields.aliases f.id).getD []
    let hasAliases := !recorded.isEmpty
    if !hasAliases && !f.hasChildFields && !f.hasMultiFields then
      .ok aliasesIds
    else
      let aliasesIds := if hasAliases then aliasesIds ++ recorded else aliasesIds
      match f.childFields with
      | none => .ok aliasesIds
      | some childIds =>
        childIds.foldl
          (fun acc id =>
            match acc with
            | .ok aliasesIds =>
              match olookup fields.byId id with
              | none => .ok aliasesIds
              | some child =>
                getAllDescendantAliasesGo fields fuel child aliasesIds
            | e => e)
          (.ok aliasesIds)

/-- `getAllDescendantAliases(field, fields)` with depth fuel
`byId.length + 1`. -/
def getAllDescendantAliases (field : NormalizedField)
    (fields : NormalizedFields) : JsResult (List String) :=
  getAllDescendantAliasesGo fields (fields.byId.length + 1) field []

/-- The parent-chain loop of `getFieldAncestors`: a dangling or absent
`parentId` ends the walk. -/
def getFieldAncestorsGo (byId : ById) (fuel : Nat)
    (parent : Option NormalizedField) (ancestors : List (String × Bool)) :
    JsResult (List (String × Bool)) :=
  match fuel with
  | 0 => .outOfFuel
  | fuel + 1 =>
    match parent with
    | none => .ok ancestors
    | some p =>
      getFieldAncestorsGo byId fuel
        (match p.parentId with
         | none => none
         | some pid => olookup byId pid)
        (oset ancestors p.id true)

/-- `getFieldAncestors(fieldId, byId)`: map of all ancestor ids.  The
first read `byId[fieldId].parentId` throws when `fieldId` itself is
absent. -/
def getFieldAncestors (fieldId : String) (byId : ById) :
    JsResult (List (String × Bool)) :=
  match olookup byId fieldId with
  | none => .typeError
  | some currentField =>
    getFieldAncestorsGo byId (byId.length + 1)
      (match currentField.parentId with
       | none => none
       | some pid => olookup byId pid)
      []

/-! ### `getTypeMetaFromSource` and `getFieldConfig`

The registries these two functions consult live in the editor's
`constants` module, which is not part of this snapshot; they are modelled
from the spec with small representative contents.  The functions
themselves are translated from the source. -/

/-- Modelled from the spec: the missing `MAIN_DATA_TYPE_DEFINITION`
registry from the editor's `constants` module — the set of known main
data-type keys (object/nested/text/keyword/alias/…, a `numeric` main type
grouping the numeric sub-types, and the catch-all `other`).  Only its key
set matters to `getTypeMetaFromSource`. -/
def MAIN_DATA_TYPE_DEFINITION : List String :=
  ["text", "keyword", "numeric", "object", "nested", "alias", "other"]

/-- Modelled from the spec: the missing `SUB_TYPE_MAP_TO_MAIN` registry
from the editor's `constants` module — maps a sub-type (e.g. `float`) to
its main type (e.g. `numeric`). -/
def SUB_TYPE_MAP_TO_MAIN : List (String × String) :=
  [("float", "numeric"), ("integer", "numeric"), ("long", "numeric")]

/-- `getMainTypeFromSubType`: registry lookup with the `?? 'other'`
fallback. -/
def getMainTypeFromSubType (subType : String) : String :=
  (olookup SUB_TYPE_MAP_TO_MAIN subType).getD "other"

/-- The `{ mainType, subType? }` result of `getTypeMetaFromSource`. -/
structure TypeMeta where
  mainType : String
  subType : Option String
deriving DecidableEq, Repr

/-- A thrown JS error: either a runtime `TypeError` or an `Error` with a
message. -/
inductive JsError where
  | typeError
  | error (msg : String)
deriving DecidableEq, Repr

/-- `getTypeMetaFromSource(sourceType)`.  The `if (!mainType)` test is the
JS falsiness check on a string: only the empty string would take the
throwing branch. -/
def getTypeMetaFromSource (sourceType : String) :
    Except JsError TypeMeta :=
  if !(MAIN_DATA_TYPE_DEFINITION.contains sourceType) then
    let mainType := getMainTypeFromSubType sourceType
    if mainType == "" then
      .error (.error ("Property type \"" ++ sourceType ++
        "\" not recognized and no subType was found for it."))
    else .ok { mainType := mainType, subType := some sourceType }
  else .ok { mainType := sourceType, subType := none }

/-- The UI field-validation configuration returned by `getFieldConfig`
(opaque to the claims; the JS fallback `|| {}` returns the empty
configuration). -/
structure FieldConfig where
  label : String := ""
deriving DecidableEq, Repr

/-- An entry of a parameter's `props` sub-registry. -/
structure PropDef where
  fieldConfig : Option FieldConfig
deriving DecidableEq, Repr

/-- An entry of the parameters registry. -/
structure ParamDef where
  fieldConfig : Option FieldConfig
  props : Option (List (String × PropDef))
deriving DecidableEq, Repr

/-- Modelled from the spec: the missing `PARAMETERS_DEFINITION` registry
from the editor's `constants` module — a static registry keyed by
parameter name (with optional sub-property entries) holding UI
field-validation configuration.  Representative contents: a plain
parameter, one with sub-properties (one of which lacks a `fieldConfig`),
and one without any `fieldConfig`. -/
def PARAMETERS_DEFINITION : List (String × ParamDef) :=
  [("name", { fieldConfig := some { label := "Name" }, props := none }),
   ("analyzer",
    { fieldConfig := some { label := "Analyzer" }
      props := some
        [("search_quote_analyzer",
          { fieldConfig := some { label := "Search quote analyzer" } }),
         ("unconfigured_prop", { fieldConfig := none })] }),
   ("copy_to", { fieldConfig := none, props := none })]

/-- `getFieldConfig(param, prop?)`.  With a `prop`, an unregistered
`param` makes the JS `PARAMETERS_DEFINITION[param].props` read throw a
`TypeError`; a missing `props` table or missing `prop` entry throws the
descriptive `Error`.  Without a `prop`, the optional chaining
`PARAMETERS_DEFINITION[param]?.fieldConfig || {}` never throws. -/
def getFieldConfig (param : String) (prop : Option String) :
    Except JsError FieldConfig :=
  match prop with
  | some p =>
    match olookup PARAMETERS_DEFINITION param with
    | none => .error .typeError
    | some paramDef =>
      match paramDef.props with
      | none =>
        .error (.error ("No field config found for prop \"" ++ p ++
          "\" on param \"" ++ param ++ "\" "))
      | some props =>
        match olookup props p with
        | none =>
          .error (.error ("No field config found for prop \"" ++ p ++
            "\" on param \"" ++ param ++ "\" "))
        | some propDef => .ok (propDef.fieldConfig.getD {})
  | none =>
    match olookup PARAMETERS_DEFINITION param with
    | none => .ok {}
    | some paramDef => .ok (paramDef.fieldConfig.getD {})

/-! ### Statement helpers and well-formed input trees -/

/-- Find a normalized field by its position path. -/
def fieldAtPath (nf : NormalizedFields) (p : List String) :
    Option NormalizedField :=
  (nf.byId.find? (fun kv => kv.2.path == p)).map (·.2)

/-- Two normalized fields that agree except possibly on `source.path`
(the only component the alias passes rewrite). -/
def eqUpToSourcePath (f0 f : NormalizedField) : Prop :=
  f = { f0 with source := { f0.source with path := f.source.path } }

/-- Entries whose keys are ids freshly drawn from a counter range, and
whose recorded `id` attribute matches their key. -/
def FreshEntries (delta : ById) (lo hi : Nat) : Prop :=
  ∀ kv ∈ delta, kv.2.id = kv.1 ∧ ∃ n, lo ≤ n ∧ n < hi ∧ kv.1 = mkId n

/-- Every entry either hangs directly off the call's parent (with the
call's depth) or off another new entry with depth exactly one deeper. -/
def ParentDepthRel (delta : ById) (pid : Option String) (depth : Nat) :
    Prop :=
  ∀ kv ∈ delta, (kv.2.parentId = pid ∧ kv.2.nestedDepth = depth) ∨
    (∃ kv', kv' ∈ delta ∧ kv.2.parentId = some kv'.1 ∧
       kv.2.nestedDepth = kv'.2.nestedDepth + 1)

/-- The keys of sibling entries are pairwise distinct. -/
def namesNodup {α : Type} (l : List (String × α)) : Prop :=
  (l.map Prod.fst).Nodup

/-- Invariant of the forward alias pass over the original map `B`, holding
midway through the fold with `remKeys` the keys still to process: keys are
unchanged, every entry differs from its original at most in `source.path`,
every recorded alias id was rewritten to point at its target key (whose
original dotted path is the alias's declared path), unrecorded entries are
untouched, the collected alias map has distinct keys, and every recorded
alias id was already processed. -/
def AliasInv (B : ById) (al : Aliases) (cur : ById)
    (remKeys : List String) : Prop :=
  cur.map Prod.fst = B.map Prod.fst ∧
  (∀ c ∈ cur, ∃ b ∈ B, c.1 = b.1 ∧ eqUpToSourcePath b.2 c.2) ∧
  (∀ e ∈ al, ∀ a ∈ e.2, ∃ f₀ tf, olookup B a = some f₀ ∧
    olookup cur a = some (pathUpd f₀ (some e.1)) ∧
    olookup B e.1 = some tf ∧ f₀.source.path = some (joinPath tf.path)) ∧
  (∀ k, (∀ e ∈ al, k ∉ e.2) → olookup cur k = olookup B k) ∧
  namesNodup al ∧
  (∀ e ∈ al, ∀ a ∈ e.2, a ∉ remKeys)

/-- A well-formed schema node, as processed in a multi-field container
(`multi = true`) or a hierarchy container (`multi = false`): the type is
explicit, a node inside a multi-field container is a leaf, a `properties`
container only appears on object/nested types, a `fields` container only
on types whose child key is `'fields'`, present containers are non-empty
and mutually exclusive, sibling names are unique, and children are again
well formed (children of a `'fields'` container live in a multi-field
container).  On such trees none of the shape information that
`normalize` strips or infers is lost. -/
inductive WFField : Bool → FieldSrc → Prop where
  | mk (multi : Bool) (t : String) (p : Option String)
      (props flds : Option Fields) (e : List (String × String))
      (hmulti : multi = true → props = none ∧ flds = none)
      (hpropsType : props ≠ none → t = "object" ∨ t = "nested")
      (hfldsType : flds ≠ none →
        getChildFieldsName t = some ChildFieldName.fields)
      (hpropsNe : props ≠ some []) (hfldsNe : flds ≠ some [])
      (hexcl : props ≠ none → flds = none)
      (hpropsNodup : namesNodup (props.getD []))
      (hfldsNodup : namesNodup (flds.getD []))
      (hprops : ∀ kv ∈ props.getD [], WFField false kv.2)
      (hflds : ∀ kv ∈ flds.getD [], WFField true kv.2) :
      WFField multi (.mk (some t) p props flds e)

/-- A well-formed sibling list for a container kind. -/
def WFFields (multi : Bool) (m : Fields) : Prop :=
  namesNodup m ∧ ∀ kv ∈ m, WFField multi kv.2

/-! ### Concrete inputs used by the claims -/

/-- `{target: {type: keyword}, link: {type: alias, path: 'target'}}`. -/
def exAlias : Fields :=
  [("target", .mk (some "keyword") none none none []),
   ("link", .mk (some "alias") (some "target") none none [])]

/-- `{link: {type: alias, path: 'missing'}}`. -/
def exMissingAlias : Fields :=
  [("link", .mk (some "alias") (some "missing") none none [])]

/-- The normalized field `normalize exMissingAlias` produces for `link`
(sole entry, unresolved declared path kept verbatim). -/
def linkNormalized : NormalizedField :=
  { id := mkId 0, parentId := none, nestedDepth := 0
    isMultiField := false, path := ["link"]
    source := { name := "link", type := some "alias"
                path := some "missing", extra := [] }
    childFieldsName := some ChildFieldName.fields
    canHaveChildFields := false, hasChildFields := false
    canHaveMultiFields := true, hasMultiFields := false
    isExpanded := false, childFields := none }

/-- `{a: {type: object, properties: {b: {type: object, properties:
{c: {type: text}}}}}}`. -/
def exDepth : Fields :=
  [("a", .mk (some "object") none
     (some [("b", .mk (some "object") none
        (some [("c", .mk (some "text") none none none [])]) none [])])
     none [])]

/-- `exDepth` with a `keyword` multi-field `kw` under `c`. -/
def exDepthMulti : Fields :=
  [("a", .mk (some "object") none
     (some [("b", .mk (some "object") none
        (some [("c", .mk (some "text") none none
           (some [("kw", .mk (some "keyword") none none none [])]) [])])
        none [])])
     none [])]

/-- The normalized field `normalize exDepthMulti` produces for the
multi-field `kw` (the fourth id drawn, depth 3, multi-field leaf). -/
def kwNormalized : NormalizedField :=
  { id := mkId 3, parentId := some (mkId 2), nestedDepth := 3
    isMultiField := true, path := ["a", "b", "c", "kw"]
    source := { name := "kw", type := some "keyword", path := none
                extra := [] }
    childFieldsName := some ChildFieldName.fields
    canHaveChildFields := false, hasChildFields := false
    canHaveMultiFields := false, hasMultiFields := false
    isExpanded := false, childFields := none }

/-- The normalized field `normalize exDepth` produces for `b` (second id
drawn, depth 1). -/
def bNormalized : NormalizedField :=
  { id := mkId 1, parentId := some (mkId 0), nestedDepth := 1
    isMultiField := false, path := ["a", "b"]
    source := { name := "b", type := some "object", path := none
                extra := [] }
    childFieldsName := some ChildFieldName.properties
    canHaveChildFields := true, hasChildFields := true
    canHaveMultiFields := false, hasMultiFields := false
    isExpanded := false, childFields := some [mkId 2] }

/-- The normalized field `normalize exDepth` produces for `c` (third id
drawn, depth 2). -/
def cNormalized : NormalizedField :=
  { id := mkId 2, parentId := some (mkId 1), nestedDepth := 2
    isMultiField := false, path := ["a", "b", "c"]
    source := { name := "c", type := some "text", path := none
                extra := [] }
    childFieldsName := some ChildFieldName.fields
    canHaveChildFields := false, hasChildFields := false
    canHaveMultiFields := true, hasMultiFields := false
    isExpanded := false, childFields := none }

/-- `{a: {properties: {b: {type: text}}}}` — no explicit `type`;
`normalize` infers `type: 'object'`, which `deNormalize` then emits. -/
def exInferredType : Fields :=
  [("a", .mk none none
     (some [("b", .mk (some "text") none none none [])]) none [])]

/-- A well-formed tree exercising objects, multi-fields and a resolvable
alias (used to witness the round-trip theorem). -/
def exRoundTrip : Fields :=
  [("z", .mk (some "object") none
      (some [("y", .mk (some "text") none none
         (some [("x", .mk (some "keyword") none none none [])]) []),
             ("w", .mk (some "keyword") none none none [])]) none []),
   ("m", .mk (some "alias") (some "z.y") none none [])]

/-- A normalized field claiming a child list `["ghost"]` whose id is
absent from the map it lives in. -/
def danglingChildField : NormalizedField :=
  { id := "root", parentId := none, nestedDepth := 0, isMultiField := false
    path := ["root"]
    source := { name := "root", type := some "object", path := none
                extra := [] }
    childFieldsName := some ChildFieldName.properties
    canHaveChildFields := true, hasChildFields := true
    canHaveMultiFields := false, hasMultiFields := false
    isExpanded := false, childFields := some ["ghost"] }

/-- A one-entry map containing only `danglingChildField`. -/
def danglingChildById : ById :=
  [("root", danglingChildField)]

/-- Aggregate around `danglingChildById` (for the alias traversal). -/
def danglingChildFields : NormalizedFields :=
  { byId := danglingChildById, aliases := [], rootLevelFields := ["root"]
    maxNestedDepth := 0 }

/-- A leaf field whose `parentId` points at an id absent from the map. -/
def danglingParentField : NormalizedField :=
  { id := "leaf", parentId := some "gone", nestedDepth := 1
    isMultiField := false, path := ["oops", "leaf"]
    source := { name := "leaf", type := some "keyword", path := none
                extra := [] }
    childFieldsName := some ChildFieldName.fields
    canHaveChildFields := false, hasChildFields := false
    canHaveMultiFields := true, hasMultiFields := false
    isExpanded := false, childFields := none }

/-- A map containing only `danglingParentField`. -/
def danglingParentById : ById :=
  [("leaf", danglingParentField)]

/-- A one-entry key-consistent map holding a leaf field named `old`
(used by the rename claim). -/
def renameById0 : ById :=
  [("_0", { id := "_0", parentId := none, nestedDepth := 0
            isMultiField := false, path := ["old"]
            source := { name := "old", type := some "keyword", path := none
                        extra := [] }
            childFieldsName := some ChildFieldName.fields
            canHaveChildFields := false, hasChildFields := false
            canHaveMultiFields := true, hasMultiFields := false
            isExpanded := false, childFields := none })]

/-- The same field with its name changed to `neo` (the argument the
editor passes after a rename). -/
def renameField0 : NormalizedField :=
  { id := "_0", parentId := none, nestedDepth := 0
    isMultiField := false, path := ["old"]
    source := { name := "neo", type := some "keyword", path := none
                extra := [] }
    childFieldsName := some ChildFieldName.fields
    canHaveChildFields := false, hasChildFields := false
    canHaveMultiFields := true, hasMultiFields := false
    isExpanded := false, childFields := none }

/-- Two sibling lists equal as key-value maps, in different insertion
order. -/
def exOrderA : Fields :=
  [("b", .mk (some "keyword") none none none []),
   ("a", .mk (some "text") none none
      (some [("raw", .mk (some "keyword") none none none [])]) [])]

/-- `exOrderA` with the two root entries swapped. -/
def exOrderB : Fields :=
  [("a", .mk (some "text") none none
      (some [("raw", .mk (some "keyword") none none none [])]) []),
   ("b", .mk (some "keyword") none none none [])]

/-! ## Helper lemmas -/

/-- Fold induction: a predicate preserved by every step holds for the
result of a left fold. -/
theorem foldl_induct {α β : Type _} {C : α → Prop} (step : α → β → α)
    (l : List β) (b : α) (hb : C b)
    (hstep : ∀ a x, C a → x ∈ l → C (step a x)) :
    C (l.foldl step b) := by
  induction l generalizing b with
  | nil => exact hb
  | cons x xs ih =>
    exact ih (step b x) (hstep b x hb (by simp))
      (fun a y ha hy => hstep a y ha (by simp [hy]))

theorem mkId_injective : Function.Injective mkId := by
  intro a b h
  have hd := congrArg String.data h
  simp only [mkId] at hd
  have := congrArg List.length hd
  simpa using this

/-- A successful `olookup` exposes a member entry with that key. -/
theorem olookup_eq_some_mem {α : Type} {m : List (String × α)} {k : String}
    {v : α} (h : olookup m k = some v) : (k, v) ∈ m := by
  induction m with
  | nil => simp [olookup] at h
  | cons kv rest ih =>
    rw [olookup] at h
    by_cases hk : kv.1 = k
    · rw [if_pos (by simpa using hk)] at h
      have : kv = (k, v) := by
        cases kv; simp_all
      rw [← this]
      exact List.mem_cons_self _ _
    · rw [if_neg (by simpa using hk)] at h
      exact List.mem_cons_of_mem _ (ih h)

/-- In a map with pairwise-distinct keys, membership determines lookup. -/
theorem olookup_of_mem_nodup {α : Type} {m : List (String × α)}
    {k : String} {v : α} (hnodup : (m.map Prod.fst).Nodup)
    (h : (k, v) ∈ m) : olookup m k = some v := by
  induction m with
  | nil => simp at h
  | cons kv rest ih =>
    simp only [List.map_cons, List.nodup_cons] at hnodup
    rcases List.mem_cons.mp h with h1 | h1
    · rw [← h1, olookup, if_pos (by simp)]
    · have hne : kv.1 ≠ k := by
        intro he
        exact hnodup.1 (he ▸ List.mem_map_of_mem Prod.fst h1)
      rw [olookup, if_neg (by simpa using hne)]
      exact ih hnodup.2 h1

/-- Failed lookup means no entry with that key. -/
theorem olookup_eq_none_iff {α : Type} {m : List (String × α)} {k : String} :
    olookup m k = none ↔ ∀ v, (k, v) ∉ m := by
  induction m with
  | nil => simp [olookup]
  | cons kv rest ih =>
    rw [olookup]
    by_cases hk : kv.1 = k
    · rw [if_pos (by simpa using hk)]
      constructor
      · intro h; exact absurd h (by simp)
      · intro h
        exact absurd (show (k, kv.2) ∈ kv :: rest by
          have : kv = (k, kv.2) := by cases kv; simp_all
          rw [← this]
          exact List.mem_cons_self _ _) (h kv.2)
    · rw [if_neg (by simpa using hk)]
      rw [ih]
      constructor
      · intro h v hv
        rcases List.mem_cons.mp hv with h1 | h1
        · exact hk (by cases kv; cases h1; rfl)
        · exact h v h1
      · intro h v hv
        exact h v (List.mem_cons_of_mem _ hv)

/-- When the key is absent, `oset` appends. -/
theorem oset_append {α : Type} {m : List (String × α)} {k : String}
    (v : α) (h : olookup m k = none) : oset m k v = m ++ [(k, v)] := by
  induction m with
  | nil => simp [oset]
  | cons kv rest ih =>
    rw [olookup] at h
    by_cases hk : kv.1 = k
    · rw [if_pos (by simpa using hk)] at h
      exact absurd h (by simp)
    · rw [if_neg (by simpa using hk)] at h
      rw [oset, if_neg (by simpa using hk), ih h]
      simp

/-- Every entry of `oset m k v` is an old entry or the new entry
`(k, v)`. -/
theorem mem_oset {α : Type} {m : List (String × α)} {k : String} {v : α}
    {kv : String × α} (h : kv ∈ oset m k v) : kv ∈ m ∨ kv = (k, v) := by
  induction m with
  | nil =>
    simp only [oset, List.mem_singleton] at h
    right; exact h
  | cons kv' rest ih =>
    rw [oset] at h
    split at h
    · rcases List.mem_cons.mp h with h1 | h1
      · right; exact h1
      · left; exact List.mem_cons_of_mem _ h1
    · rcases List.mem_cons.mp h with h1 | h1
      · left; rw [h1]; exact List.mem_cons_self _ _
      · rcases ih h1 with h2 | h2
        · left; exact List.mem_cons_of_mem _ h2
        · right; exact h2

/-- `getFieldMeta` with `isMultiField = true` switches every capability
flag off and records no children. -/
theorem getFieldMeta_multiField (f : FieldSrc) :
    (getFieldMeta f true).canHaveChildFields = false ∧
    (getFieldMeta f true).hasChildFields = false ∧
    (getFieldMeta f true).canHaveMultiFields = false ∧
    (getFieldMeta f true).hasMultiFields = false ∧
    (getFieldMeta f true).childFields = none := by
  simp [getFieldMeta]

/-- A fold whose step fixes the two failure states keeps them. -/
theorem foldl_jsresult_fix {α β : Type _} (step : JsResult α → β → JsResult α)
    (l : List β) (e : JsResult α)
    (h1 : ∀ x, step JsResult.typeError x = JsResult.typeError)
    (h2 : ∀ x, step JsResult.outOfFuel x = JsResult.outOfFuel)
    (he : e = JsResult.typeError ∨ e = JsResult.outOfFuel) :
    l.foldl step e = e := by
  induction l with
  | nil => rfl
  | cons x xs ih =>
    rcases he with he | he <;> subst he
    · rw [List.foldl_cons, h1]
      exact ih
    · rw [List.foldl_cons, h2]
      exact ih

/-- A fold whose step fixes failure states and hits one list element that
turns every `ok` state into a `TypeError` never returns `ok`. -/
theorem foldl_jsresult_stuck {α β : Type _}
    (step : JsResult α → β → JsResult α) (l : List β) (acc : JsResult α)
    (h1 : ∀ x, step JsResult.typeError x = JsResult.typeError)
    (h2 : ∀ x, step JsResult.outOfFuel x = JsResult.outOfFuel)
    (hbad : ∃ b ∈ l, ∀ a, step (JsResult.ok a) b = JsResult.typeError) :
    ∀ d, l.foldl step acc ≠ JsResult.ok d := by
  induction l generalizing acc with
  | nil => rcases hbad with ⟨b, hb, _⟩; simp at hb
  | cons c rest ih =>
    intro d
    rcases hbad with ⟨b, hb, hstep⟩
    rcases List.mem_cons.mp hb with hb1 | hb1
    · subst hb1
      rw [List.foldl_cons]
      have hnext : step acc b = JsResult.typeError ∨
          step acc b = JsResult.outOfFuel := by
        cases acc with
        | ok a => exact Or.inl (hstep a)
        | typeError => exact Or.inl (h1 b)
        | outOfFuel => exact Or.inr (h2 b)
      rw [foldl_jsresult_fix step rest _ h1 h2 hnext]
      rcases hnext with hn | hn <;> simp [hn]
    · rw [List.foldl_cons]
      exact ih (step acc c) ⟨b, hb1, hstep⟩ d

/-! ### Equations and invariants of `normGo` -/

theorem normGo_zero (props : Fields) (dest : ById) (paths : List String)
    (d : Nat) (m : Bool) (pid : Option String) (g : NormGen) :
    normGo 0 props dest paths d m pid g = none := rfl

theorem normGo_succ (fuel : Nat) (props : Fields) (dest : ById)
    (paths : List String) (d : Nat) (m : Bool) (pid : Option String)
    (g : NormGen) :
    normGo (fuel + 1) props dest paths d m pid g =
      (sortByName props).foldl (normStep fuel paths d m pid)
        (some (dest, [], g)) := rfl

theorem normStep_none (fuel : Nat) (paths : List String) (d : Nat)
    (m : Bool) (pid : Option String) (e : String × FieldSrc) :
    normStep fuel paths d m pid none e = none := rfl

/-- Every field that `normGo` adds while processing a multi-field level
keeps the multi-field leaf shape: once `isMultiField` is true, there is
no `childFields` array (and the recursion never descends). -/
theorem normGo_multiField_inv :
    ∀ fuel props dest paths depth multi pid g out ids g',
      normGo fuel props dest paths depth multi pid g = some (out, ids, g') →
      (∀ kv ∈ dest, kv.2.isMultiField = true → kv.2.childFields = none) →
      ∀ kv ∈ out, kv.2.isMultiField = true → kv.2.childFields = none := by
  intro fuel
  induction fuel with
  | zero =>
    intro props dest paths depth multi pid g out ids g' h
    simp [normGo_zero] at h
  | succ fuel ih =>
    intro props dest paths depth multi pid g out ids g' h hdest
    rw [normGo_succ] at h
    have hpost := foldl_induct
      (C := fun acc => ∀ to2 ids2 g2, acc = some (to2, ids2, g2) →
        ∀ kv ∈ to2, kv.2.isMultiField = true → kv.2.childFields = none)
      (normStep fuel paths depth multi pid) (sortByName props)
      (some (dest, [], g)) ?_ ?_
    · exact hpost out ids g' h
    · intro to2 ids2 g2 he kv hkv
      simp only [Option.some.injEq, Prod.mk.injEq] at he
      obtain ⟨h1, _, _⟩ := he
      exact hdest kv (h1 ▸ hkv)
    · intro a x ha hx
      cases a with
      | none =>
        intro to2 ids2 g2 he
        rw [normStep_none] at he
        simp at he
      | some trip =>
        obtain ⟨dest₀, ids₀, g₀⟩ := trip
        intro to2 ids2 g2 he kv hkv hmulti
        simp only [normStep] at he
        split at he
        case isTrue hcond =>
          split at he
          case h_1 => simp at he
          case h_2 dest₁ cids g₁ hrec =>
            simp only [Option.some.injEq, Prod.mk.injEq] at he
            obtain ⟨h1, _, _⟩ := he
            rw [← h1] at hkv
            rcases mem_oset hkv with hk | hk
            · exact ih _ _ _ _ _ _ _ _ _ _ hrec
                (fun kv hkv => ha dest₀ ids₀ g₀ rfl kv hkv) kv hk hmulti
            · exfalso
              rw [hk] at hmulti
              simp only [mkNormField] at hmulti
              rw [hmulti] at hcond
              have hmeta := getFieldMeta_multiField (inferType x.2)
              rw [hmeta.2.1, hmeta.2.2.2.1] at hcond
              simp at hcond
        case isFalse hcond =>
          simp only [Option.some.injEq, Prod.mk.injEq] at he
          obtain ⟨h1, _, _⟩ := he
          rw [← h1] at hkv
          rcases mem_oset hkv with hk | hk
          · exact ha dest₀ ids₀ g₀ rfl kv hk hmulti
          · rw [hk]
            simp [mkNormField]

theorem eqUpToSourcePath_components {f0 f : NormalizedField}
    (h : eqUpToSourcePath f0 f) :
    f.id = f0.id ∧ f.parentId = f0.parentId ∧
    f.nestedDepth = f0.nestedDepth ∧ f.isMultiField = f0.isMultiField ∧
    f.path = f0.path ∧ f.childFields = f0.childFields ∧
    f.source.name = f0.source.name ∧ f.source.type = f0.source.type ∧
    f.source.extra = f0.source.extra ∧
    f.hasChildFields = f0.hasChildFields ∧
    f.hasMultiFields = f0.hasMultiFields ∧
    f.childFieldsName = f0.childFieldsName := by
  rw [eqUpToSourcePath] at h
  rw [h]
  simp

/-- A true presence flag forces the matching capability flag. -/
theorem getFieldMeta_can_of_has {f : FieldSrc} {m : Bool}
    (h : ((getFieldMeta f m).hasChildFields ||
      (getFieldMeta f m).hasMultiFields) = true) :
    ((getFieldMeta f m).canHaveChildFields ||
      (getFieldMeta f m).canHaveMultiFields) = true := by
  cases m with
  | true => simp [getFieldMeta] at h
  | false =>
    rcases Bool.or_eq_true_iff.mp h with h1 | h1
    · simp only [getFieldMeta, if_false] at h1 ⊢
      rcases Bool.and_eq_true_iff.mp h1 with ⟨h2, _⟩
      rw [h2]
      simp
    · simp only [getFieldMeta, if_false] at h1 ⊢
      rcases Bool.and_eq_true_iff.mp h1 with ⟨h2, _⟩
      rw [h2]
      simp

theorem eqUpToSourcePath_refl (f : NormalizedField) :
    eqUpToSourcePath f f := by
  simp [eqUpToSourcePath]

theorem eqUpToSourcePath_update {f0 f : NormalizedField} (p : Option String)
    (h : eqUpToSourcePath f0 f) :
    eqUpToSourcePath f0 { f with source := { f.source with path := p } } := by
  rw [eqUpToSourcePath] at h ⊢
  rw [h]

/-- Every entry value after `replaceAliasPathByAliasId` differs from some
original entry value at most in `source.path`. -/
theorem replaceAliasPathByAliasId_mem (byId : ById) :
    ∀ kv ∈ (replaceAliasPathByAliasId byId).2,
      ∃ kv0 ∈ byId, kv.1 = kv0.1 ∧ eqUpToSourcePath kv0.2 kv.2 := by
  rw [replaceAliasPathByAliasId]
  refine foldl_induct
    (C := fun (acc : Aliases × ById) => ∀ kv ∈ acc.2,
      ∃ kv0 ∈ byId, kv.1 = kv0.1 ∧ eqUpToSourcePath kv0.2 kv.2)
    _ _ _ ?_ ?_
  · intro kv hkv
    exact ⟨kv, hkv, rfl, eqUpToSourcePath_refl kv.2⟩
  · intro a x ha hx kv hkv
    rw [aliasStep] at hkv
    split at hkv
    · exact ha kv hkv
    case h_2 field hlook =>
      split at hkv
      case isTrue =>
        split at hkv
        · exact ha kv hkv
        case h_2 declared hdecl =>
          split at hkv
          · exact ha kv hkv
          case h_2 target htgt =>
            rcases mem_oset hkv with hk | hk
            · exact ha kv hk
            · rcases ha (x.1, field) (olookup_eq_some_mem hlook) with
                ⟨kv0, hkv0, hkey, heq⟩
              refine ⟨kv0, hkv0, ?_, ?_⟩
              · rw [hk]; exact hkey
              · rw [hk]; exact eqUpToSourcePath_update _ heq
      case isFalse => exact ha kv hkv

theorem nextNestedDepth_of_can {meta : FieldMeta} (d : Nat)
    (h : (meta.canHaveChildFields || meta.canHaveMultiFields) = true) :
    nextNestedDepth meta d = d + 1 := by
  rw [nextNestedDepth, if_pos h]

/-- Master structural lemma about the recursive walk: on success it
appends a block of new entries whose keys are freshly drawn ids (hence
pairwise distinct and distinct from anything older), each entry records
its own key as `id`, and each entry either hangs directly off the call's
parent with the call's depth or off another new entry with depth exactly
one deeper. -/
theorem normGo_master :
    ∀ fuel props dest paths depth multi pid g out ids g',
      normGo fuel props dest paths depth multi pid g = some (out, ids, g') →
      (∀ kv ∈ dest, ∀ n, g.nextId ≤ n → kv.1 ≠ mkId n) →
      g.nextId ≤ g'.nextId ∧
      ∃ delta, out = dest ++ delta ∧
        FreshEntries delta g.nextId g'.nextId ∧
        (delta.map Prod.fst).Nodup ∧ ParentDepthRel delta pid depth := by
  intro fuel
  induction fuel with
  | zero =>
    intro props dest paths depth multi pid g out ids g' h _
    simp [normGo_zero] at h
  | succ fuel ih =>
    intro props dest paths depth multi pid g out ids g' h hdest
    rw [normGo_succ] at h
    have hpost := foldl_induct
      (C := fun acc => ∀ out2 ids2 g2, acc = some (out2, ids2, g2) →
        g.nextId ≤ g2.nextId ∧
        ∃ delta, out2 = dest ++ delta ∧
          FreshEntries delta g.nextId g2.nextId ∧
          (delta.map Prod.fst).Nodup ∧ ParentDepthRel delta pid depth)
      (normStep fuel paths depth multi pid) (sortByName props)
      (some (dest, [], g)) ?_ ?_
    · exact hpost out ids g' h
    · intro out2 ids2 g2 he
      simp only [Option.some.injEq, Prod.mk.injEq] at he
      obtain ⟨h1, _, h3⟩ := he
      refine ⟨by rw [← h3], [], by rw [← h1]; simp, ?_, by simp, ?_⟩
      · intro kv hkv; simp at hkv
      · intro kv hkv; simp at hkv
    · intro a x ha hx
      cases a with
      | none =>
        intro out2 ids2 g2 he
        rw [normStep_none] at he
        simp at he
      | some trip =>
        obtain ⟨out₀, ids₀, g₀⟩ := trip
        intro out2 ids2 g2 he
        obtain ⟨hmono₀, delta₀, hout₀, hfresh₀, hnodup₀, hrel₀⟩ :=
          ha out₀ ids₀ g₀ rfl
        simp only [normStep] at he
        split at he
        case isTrue hcond =>
          have hcan := getFieldMeta_can_of_has hcond
          rw [nextNestedDepth_of_can depth hcan] at he
          split at he
          case h_1 => simp at he
          case h_2 out₁ cids g₃ hrec =>
            have hdest₁ : ∀ kv ∈ out₀, ∀ n,
                (⟨g₀.nextId + 1,
                  max g₀.maxNestedDepth (depth + 1)⟩ : NormGen).nextId ≤ n →
                kv.1 ≠ mkId n := by
              intro kv hkv n hn
              dsimp only at hn
              rw [hout₀] at hkv
              rcases List.mem_append.mp hkv with hk | hk
              · exact hdest kv hk n (le_trans hmono₀ (by omega))
              · obtain ⟨_, k, _, hkhi, hkey⟩ := hfresh₀ kv hk
                rw [hkey]
                intro hcontra
                have := mkId_injective hcontra
                omega
            obtain ⟨hmono₁, delta₁, hout₁, hfresh₁, hnodup₁, hrel₁⟩ :=
              ih _ _ _ _ _ _ _ _ _ _ hrec hdest₁
            dsimp only at hmono₁ hfresh₁
            simp only [Option.some.injEq, Prod.mk.injEq] at he
            obtain ⟨h1, _, h3⟩ := he
            have hid : olookup out₁ (mkId g₀.nextId) = none := by
              rw [olookup_eq_none_iff]
              intro v hv
              rw [hout₁, hout₀] at hv
              rcases List.mem_append.mp hv with hv | hv
              · rcases List.mem_append.mp hv with hv | hv
                · exact hdest _ hv g₀.nextId hmono₀ rfl
                · obtain ⟨_, k, _, hkhi, hkey⟩ := hfresh₀ (_, v) hv
                  simp only at hkey
                  have := mkId_injective hkey.symm
                  omega
              · obtain ⟨_, k, hklo, _, hkey⟩ := hfresh₁ (_, v) hv
                simp only at hkey
                have := mkId_injective hkey.symm
                omega
            rw [oset_append _ hid] at h1
            refine ⟨by rw [← h3]; omega, delta₀ ++ (delta₁ ++
              [(mkId g₀.nextId,
                mkNormField (mkId g₀.nextId) pid depth multi paths x.1
                  (inferType x.2) (getFieldMeta (inferType x.2) multi)
                  (some cids))]), ?_, ?_, ?_, ?_⟩
            · rw [← h1, hout₁, hout₀]
              simp
            · intro kv hkv
              rw [← h3]
              rcases List.mem_append.mp hkv with hk | hk
              · obtain ⟨hida, k, hklo, hkhi, hkey⟩ := hfresh₀ kv hk
                exact ⟨hida, k, hklo, by omega, hkey⟩
              · rcases List.mem_append.mp hk with hk | hk
                · obtain ⟨hida, k, hklo, hkhi, hkey⟩ := hfresh₁ kv hk
                  exact ⟨hida, k, by omega, by omega, hkey⟩
                · simp only [List.mem_singleton] at hk
                  rw [hk]
                  exact ⟨rfl, g₀.nextId, by omega, by omega, rfl⟩

            · rw [List.map_append, List.nodup_append]
              refine ⟨hnodup₀, ?_, ?_⟩
              · rw [List.map_append, List.nodup_append]
                refine ⟨hnodup₁, by simp, ?_⟩
                intro key hk1 hk2
                simp only [List.map_cons, List.map_nil,
                  List.mem_singleton] at hk2
                rcases List.mem_map.mp hk1 with ⟨kv, hkv, hkey⟩
                obtain ⟨_, k, hklo, _, hkeq⟩ := hfresh₁ kv hkv
                have : mkId k = mkId g₀.nextId := by
                  rw [← hkeq, hkey, hk2]
                have := mkId_injective this
                omega
              · intro key hk1 hk2
                rcases List.mem_map.mp hk1 with ⟨kv, hkv, hkey⟩
                obtain ⟨_, k, _, hkhi, hkeq⟩ := hfresh₀ kv hkv
                rw [List.map_append] at hk2
                rcases List.mem_append.mp hk2 with hk | hk
                · rcases List.mem_map.mp hk with ⟨kv', hkv', hkey'⟩
                  obtain ⟨_, k', hklo', _, hkeq'⟩ := hfresh₁ kv' hkv'
                  have : mkId k = mkId k' := by
                    rw [← hkeq, ← hkeq', hkey, hkey']
                  have := mkId_injective this
                  omega
                · simp only [List.map_cons, List.map_nil,
                    List.mem_singleton] at hk
                  have : mkId k = mkId g₀.nextId := by
                    rw [← hkeq, hkey, hk]
                  have := mkId_injective this
                  omega
            · intro kv hkv
              rcases List.mem_append.mp hkv with hk | hk
              · rcases hrel₀ kv hk with hcase | ⟨kv', hkv', hp, hd⟩
                · exact Or.inl hcase
                · exact Or.inr ⟨kv', by simp [hkv'], hp, hd⟩
              · rcases List.mem_append.mp hk with hk | hk
                · rcases hrel₁ kv hk with ⟨hp, hd⟩ | ⟨kv', hkv', hp, hd⟩
                  · refine Or.inr ⟨(mkId g₀.nextId,
                      mkNormField (mkId g₀.nextId) pid depth multi paths x.1
                        (inferType x.2) (getFieldMeta (inferType x.2) multi)
                        (some cids)), by simp, hp, ?_⟩
                    rw [hd]
                    simp [mkNormField]
                  · exact Or.inr ⟨kv', by simp [hkv'], hp, hd⟩
                · simp only [List.mem_singleton] at hk
                  rw [hk]
                  exact Or.inl ⟨rfl, rfl⟩
        case isFalse hcond =>
          simp only [Option.some.injEq, Prod.mk.injEq] at he
          obtain ⟨h1, _, h3⟩ := he
          have hid : olookup out₀ (mkId g₀.nextId) = none := by
            rw [olookup_eq_none_iff]
            intro v hv
            rw [hout₀] at hv
            rcases List.mem_append.mp hv with hv | hv
            · exact hdest _ hv g₀.nextId hmono₀ rfl
            · obtain ⟨_, k, _, hkhi, hkey⟩ := hfresh₀ (_, v) hv
              simp only at hkey
              have := mkId_injective hkey.symm
              omega
          rw [oset_append _ hid] at h1
          refine ⟨by rw [← h3]; dsimp only; omega, delta₀ ++
            [(mkId g₀.nextId,
              mkNormField (mkId g₀.nextId) pid depth multi paths x.1
                (inferType x.2) (getFieldMeta (inferType x.2) multi)
                none)], ?_, ?_, ?_, ?_⟩
          · rw [← h1, hout₀]
            simp
          · intro kv hkv
            rw [← h3]
            rcases List.mem_append.mp hkv with hk | hk
            · obtain ⟨hida, k, hklo, hkhi, hkey⟩ := hfresh₀ kv hk
              exact ⟨hida, k, hklo, by dsimp only; omega, hkey⟩
            · simp only [List.mem_singleton] at hk
              rw [hk]
              exact ⟨rfl, g₀.nextId, by omega, by dsimp only; omega, rfl⟩
          · rw [List.map_append, List.nodup_append]
            refine ⟨hnodup₀, by simp, ?_⟩
            intro key hk1 hk2
            rcases List.mem_map.mp hk1 with ⟨kv, hkv, hkey⟩
            obtain ⟨_, k, _, hkhi, hkeq⟩ := hfresh₀ kv hkv
            simp only [List.map_cons, List.map_nil,
              List.mem_singleton] at hk2
            have : mkId k = mkId g₀.nextId := by
              rw [← hkeq, hkey, hk2]
            have := mkId_injective this
            omega
          · intro kv hkv
            rcases List.mem_append.mp hkv with hk | hk
            · rcases hrel₀ kv hk with hcase | ⟨kv', hkv', hp, hd⟩
              · exact Or.inl hcase
              · exact Or.inr ⟨kv', by simp [hkv'], hp, hd⟩
            · simp only [List.mem_singleton] at hk
              rw [hk]
              exact Or.inl ⟨rfl, rfl⟩

/-- Writing to a key that is present does not change the key list. -/
theorem oset_keys_of_lookup {α : Type} {m : List (String × α)} {k : String}
    {v0 : α} (v : α) (h : olookup m k = some v0) :
    (oset m k v).map Prod.fst = m.map Prod.fst := by
  induction m with
  | nil => simp [olookup] at h
  | cons kv rest ih =>
    rw [olookup] at h
    rw [oset]
    by_cases hk : kv.1 = k
    · rw [if_pos (by simpa using hk)]
      simp [hk]
    · rw [if_neg (by simpa using hk)] at h ⊢
      simp [ih h]

/-- One alias step does not change the key list of the map. -/
theorem aliasStep_keys (acc : Aliases × ById) (x : String × NormalizedField) :
    ((aliasStep acc x).2).map Prod.fst = acc.2.map Prod.fst := by
  rw [aliasStep]
  split
  · rfl
  case h_2 field hlook =>
    split
    case isTrue =>
      split
      · rfl
      case h_2 declared hdecl =>
        split
        · rfl
        case h_2 target htgt =>
          exact oset_keys_of_lookup _ hlook
    case isFalse => rfl

/-- The alias pass does not change the key list of the map. -/
theorem replaceAliasPathByAliasId_keys (byId : ById) :
    ((replaceAliasPathByAliasId byId).2).map Prod.fst =
      byId.map Prod.fst := by
  rw [replaceAliasPathByAliasId]
  refine foldl_induct
    (C := fun (acc : Aliases × ById) =>
      acc.2.map Prod.fst = byId.map Prod.fst) _ _ _ rfl ?_
  intro a x ha hx
  rw [aliasStep_keys a x]
  exact ha

/-- Over a map with distinct keys, a successful lookup after the alias
pass comes from a lookup before it, changed at most in `source.path`. -/
theorem pass1_lookup {byId : ById} (hnodup : (byId.map Prod.fst).Nodup)
    {i : String} {f' : NormalizedField}
    (h : olookup (replaceAliasPathByAliasId byId).2 i = some f') :
    ∃ f, olookup byId i = some f ∧ eqUpToSourcePath f f' := by
  have hmem := olookup_eq_some_mem h
  rcases replaceAliasPathByAliasId_mem byId _ hmem with ⟨kv0, hkv0, hkey, heq⟩
  refine ⟨kv0.2, ?_, heq⟩
  have hm : (i, kv0.2) ∈ byId := by
    have : kv0 = (i, kv0.2) := by
      cases kv0
      simp only [Prod.mk.injEq, and_true]
      simpa using hkey.symm
    rw [← this]
    exact hkv0
  exact olookup_of_mem_nodup hnodup hm

/-- The structural facts about `normalizePre` needed downstream: distinct
keys, key-consistent `id` attributes, and the parent/depth relation with
the root as parent. -/
theorem normalizePre_spec (m : Fields) :
    ((normalizePre m).1.map Prod.fst).Nodup ∧
    (∀ kv ∈ (normalizePre m).1, kv.2.id = kv.1) ∧
    ParentDepthRel (normalizePre m).1 none 0 := by
  rw [normalizePre]
  cases hres : normGo (sizeListF m + 1) m [] [] 0 false none ⟨0, 0⟩ with
  | none => simp [ParentDepthRel]
  | some res =>
    obtain ⟨out, ids, g'⟩ := res
    obtain ⟨_, delta, hout, hfresh, hnodup, hrel⟩ :=
      normGo_master _ _ _ _ _ _ _ _ _ _ _ hres (by simp)
    simp only [List.nil_append] at hout
    subst hout
    simp only [Option.getD_some]
    exact ⟨hnodup, fun kv hkv => (hfresh kv hkv).1, hrel⟩

/-- Lookup after a write: the written key reads the new value, others are
untouched. -/
theorem olookup_oset {α : Type} (m : List (String × α)) (k : String)
    (v : α) (t : String) :
    olookup (oset m k v) t = if k = t then some v else olookup m t := by
  induction m with
  | nil =>
    by_cases hk : k = t
    · simp [oset, olookup, hk]
    · simp [oset, olookup, hk]
  | cons kv rest ih =>
    by_cases h1 : kv.1 = k
    · by_cases hk : k = t
      · simp [oset, olookup, h1, hk]
      · have hne : kv.1 ≠ t := by rw [h1]; exact hk
        simp [oset, olookup, h1, hk, hne]
    · by_cases h2 : kv.1 = t
      · have hk : k ≠ t := fun he => h1 (by rw [h2, he])
        have h1' : t ≠ k := fun he => hk he.symm
        simp [oset, olookup, h2, h1', hk]
      · simp [oset, olookup, h1, h2, ih]

/-- If an alias's declared path matches no field's dotted position path,
the alias pass leaves its entry untouched and never records its id in
the `aliases` map. -/
theorem pass1_unresolved (byId : ById) (i : String) (f : NormalizedField)
    (hf : olookup byId i = some f)
    (hnomatch : ∀ kv ∈ byId, f.source.path ≠ some (joinPath kv.2.path)) :
    olookup (replaceAliasPathByAliasId byId).2 i = some f ∧
    ∀ t lst, olookup (replaceAliasPathByAliasId byId).1 t = some lst →
      i ∉ lst := by
  rw [replaceAliasPathByAliasId]
  have hpost := foldl_induct
    (C := fun (acc : Aliases × ById) =>
      olookup acc.2 i = some f ∧
      (∀ t lst, olookup acc.1 t = some lst → i ∉ lst) ∧
      (∀ kv ∈ acc.2, ∃ kv0 ∈ byId, kv.2.path = kv0.2.path))
    aliasStep byId (([] : Aliases), byId) ?_ ?_
  · exact ⟨hpost.1, hpost.2.1⟩
  · refine ⟨hf, ?_, ?_⟩
    · intro t lst h
      simp [olookup] at h
    · intro kv hkv
      exact ⟨kv, hkv, rfl⟩
  · intro a x ha hx
    obtain ⟨hai, haal, hapath⟩ := ha
    rw [aliasStep]
    split
    · exact ⟨hai, haal, hapath⟩
    case h_2 field hlook =>
      split
      case isTrue htype =>
        split
        · exact ⟨hai, haal, hapath⟩
        case h_2 declared hdecl =>
          by_cases hxi : x.1 = i
          · -- this is our alias's own step: the find must fail
            have hfield : field = f := by
              rw [hxi] at hlook
              rw [hai] at hlook
              exact (Option.some.injEq _ _ ▸ hlook).symm
            have hfind : a.2.find? (fun kv => joinPath kv.2.path ==
                declared) = none := by
              rw [List.find?_eq_none]
              intro kv hkv
              rcases hapath kv hkv with ⟨kv0, hkv0, hpatheq⟩
              have := hnomatch kv0 hkv0
              rw [hfield] at hdecl
              rw [hdecl] at this
              simp only [beq_iff_eq, hpatheq]
              intro hcontra
              exact this (by rw [hcontra])
            rw [hfind]
            exact ⟨hai, haal, hapath⟩
          · split
            · exact ⟨hai, haal, hapath⟩
            next target htgt =>
              refine ⟨?_, ?_, ?_⟩
              · rw [olookup_oset, if_neg (fun he => hxi he), hai]
              · intro t lst h
                rw [olookup_oset] at h
                split at h
                · have hlst : lst = (olookup a.1 target.2.id).getD []
                      ++ [x.1] := (Option.some.injEq _ _ ▸ h).symm
                  rw [hlst]
                  intro hmem
                  rcases List.mem_append.mp hmem with hm | hm
                  · cases hg : olookup a.1 target.2.id with
                    | none => rw [hg] at hm; simp at hm
                    | some old =>
                      rw [hg] at hm
                      exact haal target.2.id old hg hm
                  · simp only [List.mem_singleton] at hm
                    exact hxi hm.symm
                · exact haal t lst h
              · intro kv hkv
                rcases mem_oset hkv with hk | hk
                · exact hapath kv hk
                · rcases hapath (x.1, field) (olookup_eq_some_mem hlook)
                    with ⟨kv0, hkv0, hpatheq⟩
                  refine ⟨kv0, hkv0, ?_⟩
                  rw [hk]
                  exact hpatheq
      case isFalse => exact ⟨hai, haal, hapath⟩

/-! ### Totality of the fueled walk -/

theorem mem_insertSorted {α : Type} {le : α → α → Bool} {x y : α}
    {l : List α} (h : y ∈ insertSorted le x l) : y = x ∨ y ∈ l := by
  induction l with
  | nil => simp [insertSorted] at h; exact Or.inl h
  | cons z zs ih =>
    rw [insertSorted] at h
    split at h
    · rcases List.mem_cons.mp h with h1 | h1
      · exact Or.inl h1
      · exact Or.inr h1
    · rcases List.mem_cons.mp h with h1 | h1
      · exact Or.inr (by rw [h1]; exact List.mem_cons_self _ _)
      · rcases ih h1 with h2 | h2
        · exact Or.inl h2
        · exact Or.inr (List.mem_cons_of_mem _ h2)

theorem mem_insertionSortBy {α : Type} {le : α → α → Bool} {x : α}
    {l : List α} (h : x ∈ insertionSortBy le l) : x ∈ l := by
  induction l with
  | nil => simp [insertionSortBy] at h
  | cons z zs ih =>
    rw [insertionSortBy] at h
    rcases mem_insertSorted h with h1 | h1
    · rw [h1]; exact List.mem_cons_self _ _
    · exact List.mem_cons_of_mem _ (ih h1)

theorem mem_sortByName {α : Type} {x : String × α} {l : List (String × α)}
    (h : x ∈ sortByName l) : x ∈ l :=
  mem_insertionSortBy h

theorem sizeListF_of_mem {kv : String × FieldSrc} {l : Fields}
    (h : kv ∈ l) : FieldSrc.size kv.2 < sizeListF l := by
  induction l with
  | nil => simp at h
  | cons kv' rest ih =>
    rw [sizeListF]
    rcases List.mem_cons.mp h with h1 | h1
    · rw [h1]; omega
    · have := ih h1; omega

theorem inferType_containers (f : FieldSrc) :
    (inferType f).properties = f.properties ∧
    (inferType f).fields = f.fields := by
  cases f; exact ⟨rfl, rfl⟩

theorem container_size_lt (f : FieldSrc) (cfn : Option ChildFieldName) :
    sizeListF ((containerOf f cfn).getD []) < FieldSrc.size f := by
  cases f with
  | mk t p props flds e =>
    cases cfn with
    | none => simp [containerOf, sizeListF, FieldSrc.size]
    | some c =>
      cases c with
      | properties =>
        cases props with
        | none =>
          simp [containerOf, FieldSrc.properties, sizeListF, FieldSrc.size]
        | some l =>
          simp only [containerOf, FieldSrc.properties, Option.getD_some,
            FieldSrc.size, sizeOptF]
          omega
      | fields =>
        cases flds with
        | none =>
          simp [containerOf, FieldSrc.fields, sizeListF, FieldSrc.size]
        | some l =>
          simp only [containerOf, FieldSrc.fields, Option.getD_some,
            FieldSrc.size, sizeOptF]
          omega

/-- The walk always succeeds once the fuel exceeds the input size. -/
theorem normGo_isSome :
    ∀ fuel props dest paths depth multi pid g,
      sizeListF props < fuel →
      (normGo fuel props dest paths depth multi pid g).isSome := by
  intro fuel
  induction fuel with
  | zero => intro props dest paths depth multi pid g h; omega
  | succ fuel ih =>
    intro props dest paths depth multi pid g h
    rw [normGo_succ]
    refine foldl_induct
      (C := fun (acc : Option (ById × List String × NormGen)) =>
        acc.isSome = true) _ _ _ (by simp) ?_
    intro a x ha hx
    cases a with
    | none => simp at ha
    | some trip =>
      obtain ⟨dest₀, ids₀, g₀⟩ := trip
      simp only [normStep]
      split
      case isTrue hcond =>
        have hsize : sizeListF
            ((containerOf (inferType x.2)
              (getFieldMeta (inferType x.2) multi).childFieldsName).getD [])
            < fuel := by
          have h1 := container_size_lt (inferType x.2)
            (getFieldMeta (inferType x.2) multi).childFieldsName
          have h2 := sizeListF_of_mem (mem_sortByName hx)
          have h3 : FieldSrc.size (inferType x.2) = FieldSrc.size x.2 := by
            cases hx2 : x.2
            simp [inferType, FieldSrc.withType, FieldSrc.size]
          omega
        split
        case h_1 hrec =>
          have hc := ih _ dest₀ (paths ++ [x.1])
            (nextNestedDepth (getFieldMeta (inferType x.2) multi) depth)
            (getFieldMeta (inferType x.2) multi).canHaveMultiFields
            (some (mkId g₀.nextId))
            { nextId := g₀.nextId + 1
              maxNestedDepth := max g₀.maxNestedDepth
                (nextNestedDepth (getFieldMeta (inferType x.2) multi) depth) }
            hsize
          rw [hrec] at hc
          simp at hc
        case h_2 out₁ cids g₁ hrec => simp
      case isFalse hcond => simp

/-! ### Determinism up to recursive sorting -/

theorem length_insertSorted {α : Type} (le : α → α → Bool) (x : α)
    (l : List α) : (insertSorted le x l).length = l.length + 1 := by
  induction l with
  | nil => rfl
  | cons y ys ih =>
    rw [insertSorted]
    split
    · simp
    · simp [ih]

theorem length_insertionSortBy {α : Type} (le : α → α → Bool)
    (l : List α) : (insertionSortBy le l).length = l.length := by
  induction l with
  | nil => rfl
  | cons y ys ih =>
    rw [insertionSortBy, length_insertSorted, ih, List.length_cons]

theorem length_sortByName {α : Type} (l : List (String × α)) :
    (sortByName l).length = l.length :=
  length_insertionSortBy _ l

theorem length_sortTreeL (l : Fields) :
    (sortTreeL l).length = l.length := by
  induction l with
  | nil => rfl
  | cons kv rest ih => rw [sortTreeL, List.length_cons, ih, List.length_cons]

theorem sortTreeL_eq_map (l : Fields) :
    sortTreeL l = l.map (fun kv => (kv.1, sortTreeF kv.2)) := by
  induction l with
  | nil => rfl
  | cons kv rest ih => rw [sortTreeL, List.map_cons, ih]

theorem insertSorted_map_snd {α β : Type} (g : α → β)
    (x : String × α) (l : List (String × α)) :
    insertSorted (fun a b => strLe a.1 b.1) (x.1, g x.2)
        (l.map (fun kv => (kv.1, g kv.2))) =
      (insertSorted (fun a b => strLe a.1 b.1) x l).map
        (fun kv => (kv.1, g kv.2)) := by
  induction l with
  | nil => rfl
  | cons y ys ih =>
    rw [List.map_cons, insertSorted, insertSorted]
    dsimp only
    by_cases hc : strLe x.1 y.1
    · rw [if_pos hc, if_pos hc, List.map_cons, List.map_cons]
    · rw [if_neg hc, if_neg hc, List.map_cons, ih]

theorem sortByName_map_snd {α β : Type} (g : α → β)
    (l : List (String × α)) :
    sortByName (l.map (fun kv => (kv.1, g kv.2))) =
      (sortByName l).map (fun kv => (kv.1, g kv.2)) := by
  rw [sortByName, sortByName]
  induction l with
  | nil => rfl
  | cons kv rest ih =>
    rw [List.map_cons, insertionSortBy, insertionSortBy, ih,
      insertSorted_map_snd]

theorem sortTree_eq_map_sort (l : Fields) :
    sortTree l = (sortByName l).map (fun kv => (kv.1, sortTreeF kv.2)) := by
  rw [sortTree, sortTreeL_eq_map, sortByName_map_snd]

theorem sortTreeF_parts {v₁ v₂ : FieldSrc} (h : sortTreeF v₁ = sortTreeF v₂) :
    v₁.type = v₂.type ∧ v₁.path = v₂.path ∧ v₁.extra = v₂.extra ∧
    sortTreeOpt v₁.properties = sortTreeOpt v₂.properties ∧
    sortTreeOpt v₁.fields = sortTreeOpt v₂.fields := by
  cases v₁ with
  | mk t₁ p₁ pr₁ fl₁ e₁ =>
    cases v₂ with
    | mk t₂ p₂ pr₂ fl₂ e₂ =>
      rw [sortTreeF, sortTreeF] at h
      injection h with h1 h2 h3 h4 h5
      exact ⟨h1, h2, h5, h3, h4⟩

theorem sortTreeOpt_isSome {o₁ o₂ : Option Fields}
    (h : sortTreeOpt o₁ = sortTreeOpt o₂) : o₁.isSome = o₂.isSome := by
  cases o₁ <;> cases o₂ <;> simp_all [sortTreeOpt]

theorem sortTree_length (l : Fields) : (sortTree l).length = l.length := by
  rw [sortTree, length_sortByName, length_sortTreeL]

theorem sortTreeOpt_getD_sortTree {o₁ o₂ : Option Fields}
    (h : sortTreeOpt o₁ = sortTreeOpt o₂) :
    sortTree (o₁.getD []) = sortTree (o₂.getD []) := by
  cases o₁ <;> cases o₂ <;> simp_all [sortTreeOpt, sortTree, sortTreeL]

theorem sortTreeOpt_isEmpty {o₁ o₂ : Option Fields}
    (h : sortTreeOpt o₁ = sortTreeOpt o₂) :
    (o₁.getD []).isEmpty = (o₂.getD []).isEmpty := by
  have hlen : (sortTree (o₁.getD [])).length =
      (sortTree (o₂.getD [])).length := by
    rw [sortTreeOpt_getD_sortTree h]
  rw [sortTree_length, sortTree_length] at hlen
  cases he₁ : (o₁.getD []) <;> cases he₂ : (o₂.getD []) <;>
    simp_all

theorem inferType_type (v : FieldSrc) :
    (inferType v).type =
      if v.type.isNone && v.properties.isSome then some "object"
      else v.type := by
  cases v; rfl

theorem inferType_path (v : FieldSrc) : (inferType v).path = v.path := by
  cases v; rfl

theorem inferType_extra (v : FieldSrc) : (inferType v).extra = v.extra := by
  cases v; rfl

theorem containerOf_inferType (v : FieldSrc) (cfn : Option ChildFieldName) :
    containerOf (inferType v) cfn = containerOf v cfn := by
  cases cfn with
  | none => rfl
  | some c =>
    cases c <;> simp [containerOf, (inferType_containers v).1,
      (inferType_containers v).2]

theorem getFieldMeta_det {v₁ v₂ : FieldSrc} (multi : Bool)
    (h : sortTreeF v₁ = sortTreeF v₂) :
    getFieldMeta (inferType v₁) multi = getFieldMeta (inferType v₂) multi := by
  obtain ⟨ht, hp, he, hpr, hfl⟩ := sortTreeF_parts h
  have htype : (inferType v₁).type = (inferType v₂).type := by
    rw [inferType_type, inferType_type, ht, sortTreeOpt_isSome hpr]
  have hnonempty : ∀ cfn, containerNonempty (inferType v₁) cfn =
      containerNonempty (inferType v₂) cfn := by
    intro cfn
    rw [containerNonempty, containerNonempty, containerOf_inferType,
      containerOf_inferType]
    cases cfn with
    | none => rfl
    | some c =>
      cases c with
      | properties =>
        simp only [containerOf]
        cases ho₁ : v₁.properties with
        | none =>
          cases ho₂ : v₂.properties with
          | none => rfl
          | some l₂ => rw [ho₁, ho₂] at hpr; simp [sortTreeOpt] at hpr
        | some l₁ =>
          cases ho₂ : v₂.properties with
          | none => rw [ho₁, ho₂] at hpr; simp [sortTreeOpt] at hpr
          | some l₂ =>
            rw [ho₁, ho₂] at hpr
            have hpr' : sortByName (sortTreeL l₁) =
                sortByName (sortTreeL l₂) := by
              simpa [sortTreeOpt] using hpr
            have hlen : l₁.length = l₂.length := by
              have := congrArg List.length hpr'
              rwa [length_sortByName, length_sortByName, length_sortTreeL,
                length_sortTreeL] at this
            cases l₁ <;> cases l₂ <;> simp_all
      | fields =>
        simp only [containerOf]
        cases ho₁ : v₁.fields with
        | none =>
          cases ho₂ : v₂.fields with
          | none => rfl
          | some l₂ => rw [ho₁, ho₂] at hfl; simp [sortTreeOpt] at hfl
        | some l₁ =>
          cases ho₂ : v₂.fields with
          | none => rw [ho₁, ho₂] at hfl; simp [sortTreeOpt] at hfl
          | some l₂ =>
            rw [ho₁, ho₂] at hfl
            have hfl' : sortByName (sortTreeL l₁) =
                sortByName (sortTreeL l₂) := by
              simpa [sortTreeOpt] using hfl
            have hlen : l₁.length = l₂.length := by
              have := congrArg List.length hfl'
              rwa [length_sortByName, length_sortByName, length_sortTreeL,
                length_sortTreeL] at this
            cases l₁ <;> cases l₂ <;> simp_all
  rw [getFieldMeta, getFieldMeta, htype]
  rw [hnonempty]

theorem mkNormField_congr (id : String) (pid : Option String) (d : Nat)
    (multi : Bool) (paths : List String) (n : String)
    {f₁ f₂ : FieldSrc} (meta : FieldMeta) (cids : Option (List String))
    (ht : f₁.type = f₂.type) (hp : f₁.path = f₂.path)
    (he : f₁.extra = f₂.extra) :
    mkNormField id pid d multi paths n f₁ meta cids =
      mkNormField id pid d multi paths n f₂ meta cids := by
  rw [mkNormField, mkNormField, ht, hp, he]

theorem foldl_normStep_none (fuel : Nat) (paths : List String) (d : Nat)
    (m : Bool) (pid : Option String) (l : List (String × FieldSrc)) :
    List.foldl (normStep fuel paths d m pid) none l = none := by
  induction l with
  | nil => rfl
  | cons x xs ih => rw [List.foldl_cons, normStep_none]; exact ih

/-- One successful step is determined by the entry's name and
recursively-sorted source (given determinism of the recursive walk at the
two fuels). -/
theorem normStep_det_some
    {fuel₁ fuel₂ : Nat} {paths : List String} {depth : Nat} {multi : Bool}
    {pid : Option String} {st : ById × List String × NormGen}
    {x₁ x₂ : String × FieldSrc} {s₁ s₂ : ById × List String × NormGen}
    (hdet : ∀ props₁ props₂ dest pa d mu pi gg r₁ r₂,
      sortTree props₁ = sortTree props₂ →
      normGo fuel₁ props₁ dest pa d mu pi gg = some r₁ →
      normGo fuel₂ props₂ dest pa d mu pi gg = some r₂ → r₁ = r₂)
    (hname : x₁.1 = x₂.1) (hsrc : sortTreeF x₁.2 = sortTreeF x₂.2)
    (h₁ : normStep fuel₁ paths depth multi pid (some st) x₁ = some s₁)
    (h₂ : normStep fuel₂ paths depth multi pid (some st) x₂ = some s₂) :
    s₁ = s₂ := by
  obtain ⟨dest₀, ids₀, g₀⟩ := st
  obtain ⟨ht, hp, he, hpr, hfl⟩ := sortTreeF_parts hsrc
  have hmeta := getFieldMeta_det multi hsrc
  have hcont : sortTree ((containerOf (inferType x₁.2)
        (getFieldMeta (inferType x₁.2) multi).childFieldsName).getD []) =
      sortTree ((containerOf (inferType x₂.2)
        (getFieldMeta (inferType x₁.2) multi).childFieldsName).getD []) := by
    rw [containerOf_inferType, containerOf_inferType]
    cases (getFieldMeta (inferType x₁.2) multi).childFieldsName with
    | none => rfl
    | some c =>
      cases c with
      | properties => exact sortTreeOpt_getD_sortTree hpr
      | fields => exact sortTreeOpt_getD_sortTree hfl
  have hit : (inferType x₁.2).type = (inferType x₂.2).type := by
    rw [inferType_type, inferType_type, ht, sortTreeOpt_isSome hpr]
  have hip : (inferType x₁.2).path = (inferType x₂.2).path := by
    rw [inferType_path, inferType_path, hp]
  have hie : (inferType x₁.2).extra = (inferType x₂.2).extra := by
    rw [inferType_extra, inferType_extra, he]
  simp only [normStep] at h₁ h₂
  rw [← hmeta, ← hname] at h₂
  by_cases hcond : ((getFieldMeta (inferType x₁.2) multi).hasChildFields ||
      (getFieldMeta (inferType x₁.2) multi).hasMultiFields) = true
  · rw [if_pos hcond] at h₁ h₂
    split at h₁
    · exact absurd h₁ (by simp)
    next o₁ c₁ g₁ hrec₁ =>
      split at h₂
      · exact absurd h₂ (by simp)
      next o₂ c₂ g₂ hrec₂ =>
        have htrip : (o₁, c₁, g₁) = (o₂, c₂, g₂) :=
          hdet _ _ _ _ _ _ _ _ _ _ hcont hrec₁ hrec₂
        injection htrip with ho hrest
        injection hrest with hc hg
        subst ho; subst hc; subst hg
        injection h₁ with h₁'
        injection h₂ with h₂'
        rw [← h₁', ← h₂']
        rw [mkNormField_congr _ _ _ _ _ _ _ _ hit hip hie]
  · rw [if_neg hcond] at h₁ h₂
    injection h₁ with h₁'
    injection h₂ with h₂'
    rw [← h₁', ← h₂']
    rw [mkNormField_congr _ _ _ _ _ _ _ _ hit hip hie]

/-- Folding the per-entry step over two pointwise name/sorted-source
equal lists from the same state gives the same successful result. -/
theorem foldl_normStep_det
    {fuel₁ fuel₂ : Nat} {paths : List String} {depth : Nat} {multi : Bool}
    {pid : Option String}
    (hdet : ∀ props₁ props₂ dest pa d mu pi gg r₁ r₂,
      sortTree props₁ = sortTree props₂ →
      normGo fuel₁ props₁ dest pa d mu pi gg = some r₁ →
      normGo fuel₂ props₂ dest pa d mu pi gg = some r₂ → r₁ = r₂) :
    ∀ (l₁ l₂ : List (String × FieldSrc))
      (st : Option (ById × List String × NormGen)) r₁ r₂,
      l₁.map (fun kv => (kv.1, sortTreeF kv.2)) =
        l₂.map (fun kv => (kv.1, sortTreeF kv.2)) →
      List.foldl (normStep fuel₁ paths depth multi pid) st l₁ = some r₁ →
      List.foldl (normStep fuel₂ paths depth multi pid) st l₂ = some r₂ →
      r₁ = r₂ := by
  intro l₁
  induction l₁ with
  | nil =>
    intro l₂ st r₁ r₂ hmap h1 h2
    cases l₂ with
    | nil =>
      simp only [List.foldl_nil] at h1 h2
      rw [h1] at h2
      exact (Option.some.injEq _ _ ▸ h2)
    | cons x₂ t₂ => simp at hmap
  | cons x₁ t₁ ihl =>
    intro l₂ st r₁ r₂ hmap h1 h2
    cases l₂ with
    | nil => simp at hmap
    | cons x₂ t₂ =>
      simp only [List.map_cons, List.cons.injEq] at hmap
      obtain ⟨hx, htails⟩ := hmap
      obtain ⟨hname, hsrc⟩ := Prod.mk.inj hx
      rw [List.foldl_cons] at h1 h2
      cases st with
      | none =>
        rw [normStep_none, foldl_normStep_none] at h1
        exact absurd h1 (by simp)
      | some st₀ =>
        cases hstep₁ : normStep fuel₁ paths depth multi pid (some st₀) x₁
          with
        | none =>
          rw [hstep₁, foldl_normStep_none] at h1
          exact absurd h1 (by simp)
        | some s₁ =>
          cases hstep₂ : normStep fuel₂ paths depth multi pid (some st₀) x₂
            with
          | none =>
            rw [hstep₂, foldl_normStep_none] at h2
            exact absurd h2 (by simp)
          | some s₂ =>
            have hs : s₁ = s₂ :=
              normStep_det_some hdet hname hsrc hstep₁ hstep₂
            rw [hstep₁] at h1
            rw [hstep₂, ← hs] at h2
            exact ihl t₂ (some s₁) r₁ r₂ htails h1 h2

/-- The recursive walk is a function of the recursively-sorted input: two
inputs equal up to sibling reordering produce identical results (for any
sufficient fuels). -/
theorem normGo_det :
    ∀ fuel₁ fuel₂ props₁ props₂ dest paths depth multi pid g r₁ r₂,
      sortTree props₁ = sortTree props₂ →
      normGo fuel₁ props₁ dest paths depth multi pid g = some r₁ →
      normGo fuel₂ props₂ dest paths depth multi pid g = some r₂ →
      r₁ = r₂ := by
  intro fuel₁
  induction fuel₁ with
  | zero =>
    intro fuel₂ props₁ props₂ dest paths depth multi pid g r₁ r₂ _ h1 _
    simp [normGo_zero] at h1
  | succ fuel₁ ih =>
    intro fuel₂ props₁ props₂ dest paths depth multi pid g r₁ r₂ hsort h1 h2
    cases fuel₂ with
    | zero => simp [normGo_zero] at h2
    | succ fuel₂ =>
      rw [normGo_succ] at h1 h2
      have hmap : (sortByName props₁).map (fun kv => (kv.1, sortTreeF kv.2))
          = (sortByName props₂).map (fun kv => (kv.1, sortTreeF kv.2)) := by
        rw [← sortTree_eq_map_sort, ← sortTree_eq_map_sort]
        exact hsort
      exact foldl_normStep_det (fun p₁ p₂ de pa d mu pi gg s₁ s₂ =>
          ih fuel₂ p₁ p₂ de pa d mu pi gg s₁ s₂)
        (sortByName props₁) (sortByName props₂) _ r₁ r₂ hmap h1 h2

/-! ### Helper lemmas for the round-trip (C1) -/

theorem deNormGo_zero (byId : ById) (ids : List String) (dest : Fields) :
    deNormGo byId 0 ids dest = .outOfFuel := rfl

theorem deNormGo_succ (byId : ById) (fuel : Nat) (ids : List String)
    (dest : Fields) :
    deNormGo byId (fuel + 1) ids dest =
      ids.foldl (deNormStep byId fuel) (.ok dest) := rfl

theorem replaceAliasIdByAliasPath_foldl (aliases : Aliases) (byId : ById) :
    replaceAliasIdByAliasPath aliases byId =
      aliases.foldl aliasUndoOuter byId := rfl

theorem olookup_oset_self {α : Type} (m : List (String × α)) (k : String)
    (v : α) : olookup (oset m k v) k = some v := by
  induction m with
  | nil => simp [oset, olookup]
  | cons kv rest ih =>
    rw [oset]
    by_cases hk : kv.1 = k
    · rw [if_pos (by simpa using hk), olookup, if_pos (by simp)]
    · rw [if_neg (by simpa using hk), olookup, if_neg (by simpa using hk)]
      exact ih

theorem olookup_oset_ne {α : Type} {m : List (String × α)} {k k' : String}
    (v : α) (h : k' ≠ k) : olookup (oset m k v) k' = olookup m k' := by
  induction m with
  | nil =>
    simp only [oset, olookup]
    rw [if_neg (show ¬(k == k') = true by
      simpa using fun he => h he.symm)]
  | cons kv rest ih =>
    rw [oset]
    by_cases hk : kv.1 = k
    · rw [if_pos (by simpa using hk), olookup, olookup,
        if_neg (show ¬(k == k') = true by
          simpa using fun he => h he.symm),
        if_neg (show ¬(kv.1 == k') = true by
          rw [hk]; simpa using fun he => h he.symm)]
    · rw [if_neg (by simpa using hk), olookup, olookup]
      by_cases hk' : kv.1 = k'
      · rw [if_pos (by simpa using hk'), if_pos (by simpa using hk')]
      · rw [if_neg (by simpa using hk'), if_neg (by simpa using hk')]
        exact ih

theorem olookup_append_left {α : Type} {l₂ : List (String × α)}
    (l₁ : List (String × α)) {k : String}
    (h : ∀ v, (k, v) ∉ l₂) : olookup (l₁ ++ l₂) k = olookup l₁ k := by
  induction l₁ with
  | nil =>
    simp only [List.nil_append]
    rw [show (olookup ([] : List (String × α)) k = none) from rfl]
    exact olookup_eq_none_iff.mpr h
  | cons kv rest ih =>
    rw [List.cons_append, olookup, olookup]
    by_cases hk : kv.1 = k
    · rw [if_pos (by simpa using hk), if_pos (by simpa using hk)]
    · rw [if_neg (by simpa using hk), if_neg (by simpa using hk)]
      exact ih

theorem olookup_append_right {α : Type} {l₁ : List (String × α)}
    (l₂ : List (String × α)) {k : String}
    (h : ∀ v, (k, v) ∉ l₁) : olookup (l₁ ++ l₂) k = olookup l₂ k := by
  induction l₁ with
  | nil => simp
  | cons kv rest ih =>
    rw [List.cons_append, olookup]
    by_cases hk : kv.1 = k
    · exact absurd (show (k, kv.2) ∈ kv :: rest by
        have : kv = (k, kv.2) := by cases kv; simp_all
        rw [← this]
        exact List.mem_cons_self _ _) (h kv.2)
    · rw [if_neg (by simpa using hk)]
      exact ih (fun v hv => h v (List.mem_cons_of_mem _ hv))

/-- In a map with pairwise-distinct keys, two entries with the same key
are the same entry. -/
theorem key_unique_of_nodup {α : Type} {l : List (String × α)}
    (hnodup : (l.map Prod.fst).Nodup) {e e' : String × α}
    (he : e ∈ l) (he' : e' ∈ l) (hk : e.1 = e'.1) : e = e' := by
  induction l with
  | nil => simp at he
  | cons kv rest ih =>
    simp only [List.map_cons, List.nodup_cons] at hnodup
    rcases List.mem_cons.mp he with h1 | h1 <;>
      rcases List.mem_cons.mp he' with h2 | h2
    · rw [h1, h2]
    · exfalso
      apply hnodup.1
      have hkk : kv.1 = e'.1 := by rw [← h1]; exact hk
      rw [hkk]
      exact List.mem_map_of_mem Prod.fst h2
    · exfalso
      apply hnodup.1
      have hkk : kv.1 = e.1 := by rw [← h2]; exact hk.symm
      rw [hkk]
      exact List.mem_map_of_mem Prod.fst h1
    · exact ih hnodup.2 h1 h2

theorem insertSorted_perm {α : Type} (le : α → α → Bool) (x : α)
    (l : List α) : (insertSorted le x l).Perm (x :: l) := by
  induction l with
  | nil => simp [insertSorted]
  | cons y ys ih =>
    rw [insertSorted]
    by_cases hc : le x y = true
    · rw [if_pos hc]
    · rw [if_neg hc]
      exact (ih.cons y).trans (List.Perm.swap x y ys)

theorem insertionSortBy_perm {α : Type} (le : α → α → Bool)
    (l : List α) : (insertionSortBy le l).Perm l := by
  induction l with
  | nil => simp [insertionSortBy]
  | cons x xs ih =>
    rw [insertionSortBy]
    exact (insertSorted_perm le x _).trans (ih.cons x)

theorem namesNodup_sortByName {α : Type} {l : List (String × α)}
    (h : namesNodup l) : namesNodup (sortByName l) := by
  rw [namesNodup] at h ⊢
  exact (((insertionSortBy_perm _ l).map Prod.fst).nodup_iff).mpr h

theorem countListF_insertSorted
    (le' : (String × FieldSrc) → (String × FieldSrc) → Bool)
    (x : String × FieldSrc) (l : Fields) :
    countListF (insertSorted le' x l) = countF x.2 + countListF l := by
  induction l with
  | nil => rfl
  | cons y ys ih =>
    rw [insertSorted]
    by_cases hc : le' x y = true
    · rw [if_pos hc]
      rfl
    · rw [if_neg hc]
      rw [show countListF (y :: insertSorted le' x ys) =
        countF y.2 + countListF (insertSorted le' x ys) from rfl, ih]
      rw [show countListF (y :: ys) = countF y.2 + countListF ys from rfl]
      omega

theorem countListF_sortByName (l : Fields) :
    countListF (sortByName l) = countListF l := by
  rw [sortByName]
  induction l with
  | nil => rfl
  | cons x xs ih =>
    rw [insertionSortBy, countListF_insertSorted _ x _, ih]
    rfl

theorem countF_pos (f : FieldSrc) : 1 ≤ countF f := by
  cases f
  rw [countF]
  omega

/-- A field with an explicit type is untouched by the type inference. -/
theorem inferType_of_some {v : FieldSrc} {t : String}
    (h : v.type = some t) : inferType v = v := by
  cases v
  rw [FieldSrc.type] at h
  rw [inferType, FieldSrc.type, h, FieldSrc.properties]
  simp [FieldSrc.withType]

theorem pathUpd_pathUpd (f : NormalizedField) (p q : Option String) :
    pathUpd (pathUpd f p) q = pathUpd f q := rfl

theorem pathUpd_self (f : NormalizedField) :
    pathUpd f f.source.path = f := rfl

/-- Meta flags of an object/nested node carrying a non-empty
`properties` container. -/
theorem getFieldMeta_props_case {t : String} (p : Option String) {l : Fields}
    (e : List (String × String)) (ht : t = "object" ∨ t = "nested")
    (hne : l ≠ []) :
    getFieldMeta (.mk (some t) p (some l) none e) false =
      { childFieldsName := some ChildFieldName.properties
        canHaveChildFields := true, hasChildFields := true
        canHaveMultiFields := false, hasMultiFields := false
        isExpanded := false, childFields := none } := by
  cases l with
  | nil => exact absurd rfl hne
  | cons a as =>
    rcases ht with h | h <;> subst h <;>
      simp [getFieldMeta, getChildFieldsName, fieldsWithoutMultiFields,
        containerNonempty, containerOf, FieldSrc.type, FieldSrc.properties,
        List.isEmpty]

/-- Meta flags of a node carrying a non-empty multi-field `fields`
container. -/
theorem getFieldMeta_fields_case {t : String} (p : Option String) {l : Fields}
    (e : List (String × String))
    (ht : getChildFieldsName t = some ChildFieldName.fields) (hne : l ≠ []) :
    getFieldMeta (.mk (some t) p none (some l) e) false =
      { childFieldsName := some ChildFieldName.fields
        canHaveChildFields := false, hasChildFields := false
        canHaveMultiFields := true, hasMultiFields := true
        isExpanded := false, childFields := none } := by
  cases l with
  | nil => exact absurd rfl hne
  | cons a as =>
    simp [getFieldMeta, FieldSrc.type, ht, containerNonempty, containerOf,
      FieldSrc.fields, List.isEmpty]

/-- A node without containers has both presence flags off. -/
theorem getFieldMeta_leaf_case (t p : Option String)
    (e : List (String × String)) :
    (getFieldMeta (.mk t p none none e) false).hasChildFields = false ∧
    (getFieldMeta (.mk t p none none e) false).hasMultiFields = false := by
  have hcn : ∀ cfn, containerNonempty (.mk t p none none e) cfn = false := by
    intro cfn
    cases cfn with
    | none => rfl
    | some c => cases c <;> rfl
  simp [getFieldMeta, hcn]

/-- Fold-level rebuild lemma: folding the normalization step over a
well-formed sibling list draws one id per node, appends exactly the
new entries, and the ids it returns let `deNormalizePaths` rebuild the
sibling list (with every subtree recursively sorted) from any map that
agrees with the produced one on the freshly drawn id range.  The
hypothesis `hS` is the same statement for the recursive walk at the next
fuel level down. -/
theorem normGo_rebuild_fold (fuel : Nat) (paths : List String) (depth : Nat)
    (multi : Bool) (pid : Option String)
    (hS : ∀ props dest pa d mu pi g out ids g',
      normGo fuel props dest pa d mu pi g = some (out, ids, g') →
      WFFields mu props →
      (∀ kv ∈ dest, ∀ n, g.nextId ≤ n → kv.1 ≠ mkId n) →
      g'.nextId = g.nextId + countListF props ∧
      (∃ delta, out = dest ++ delta ∧ delta.length = countListF props ∧
        FreshEntries delta g.nextId g'.nextId) ∧
      ∀ M, (∀ n, g.nextId ≤ n → n < g'.nextId →
          olookup M (mkId n) = olookup out (mkId n)) →
        ∀ d, countListF props < d →
          deNormGo M d ids [] = JsResult.ok (sortTree props)) :
    ∀ rest dest' ids' g₀ out ids g',
      List.foldl (normStep fuel paths depth multi pid)
        (some (dest', ids', g₀)) rest = some (out, ids, g') →
      (∀ kv ∈ rest, WFField multi kv.2) →
      namesNodup rest →
      (∀ kv ∈ dest', ∀ n, g₀.nextId ≤ n → kv.1 ≠ mkId n) →
      g'.nextId = g₀.nextId + countListF rest ∧
      (∃ delta, out = dest' ++ delta ∧ delta.length = countListF rest ∧
        FreshEntries delta g₀.nextId g'.nextId) ∧
      ∃ idsNew, ids = ids' ++ idsNew ∧
      ∀ M, (∀ n, g₀.nextId ≤ n → n < g'.nextId →
          olookup M (mkId n) = olookup out (mkId n)) →
        ∀ d start, countListF rest ≤ d →
          (∀ kv ∈ rest, kv.1 ∉ start.map Prod.fst) →
          List.foldl (deNormStep M d) (JsResult.ok start) idsNew =
            JsResult.ok
              (start ++ rest.map (fun kv => (kv.1, sortTreeF kv.2))) := by
  intro rest
  induction rest with
  | nil =>
    intro dest' ids' g₀ out ids g' hfold hWF hnodup hdest
    simp only [List.foldl_nil, Option.some.injEq, Prod.mk.injEq] at hfold
    obtain ⟨h1, h2, h3⟩ := hfold
    refine ⟨?_, ⟨[], by simp [h1], rfl, ?_⟩, [], ?_, ?_⟩
    · show g'.nextId = g₀.nextId + 0
      rw [← h3]
      omega
    · intro kv hkv; simp at hkv
    · rw [h2, List.append_nil]
    · intro M hM d start hd hnames
      simp only [List.foldl_nil, List.map_nil, List.append_nil]
  | cons kv tail ih =>
    intro dest' ids' g₀ out ids g' hfold hWF hnodup hdest
    obtain ⟨k, v⟩ := kv
    have hWFv : WFField multi v := hWF (k, v) (List.mem_cons_self _ _)
    simp only [namesNodup, List.map_cons, List.nodup_cons] at hnodup
    obtain ⟨hknotin, hnodupTail⟩ := hnodup
    have hWFtail : ∀ kv ∈ tail, WFField multi kv.2 :=
      fun kv hkv => hWF kv (List.mem_cons_of_mem _ hkv)
    have hid0 : ∀ w, (mkId g₀.nextId, w) ∉ dest' := fun w hw =>
      (hdest (mkId g₀.nextId, w) hw g₀.nextId le_rfl) rfl
    rw [List.foldl_cons] at hfold
    cases hWFv with
    | mk _ t p props flds e hmulti hpropsType hfldsType hpropsNe hfldsNe
        hexcl hpropsNodup hfldsNodup hprops hflds =>
    simp only [normStep] at hfold
    rw [inferType_of_some (show (FieldSrc.mk (some t) p props flds e).type =
      some t from rfl)] at hfold
    cases props with
    | some l =>
      have hmf : multi = false := by
        cases multi
        · rfl
        · exact absurd (hmulti rfl).1 (by simp)
      subst hmf
      have hflds0 : flds = none := hexcl (by simp)
      subst hflds0
      have hlne : l ≠ [] := fun h => hpropsNe (by rw [h])
      have hmeta := getFieldMeta_props_case p e
        (hpropsType (by simp)) hlne
      rw [hmeta] at hfold
      dsimp only at hfold
      rw [if_pos (show (true || false) = true from rfl)] at hfold
      rw [show nextNestedDepth
        { childFieldsName := some ChildFieldName.properties
          canHaveChildFields := true, hasChildFields := true
          canHaveMultiFields := false, hasMultiFields := false
          isExpanded := false, childFields := none } depth = depth + 1
        from rfl] at hfold
      dsimp only [containerOf, FieldSrc.properties, Option.getD] at hfold
      cases hrec : normGo fuel l dest' (paths ++ [k]) (depth + 1) false
          (some (mkId g₀.nextId))
          ⟨g₀.nextId + 1, max g₀.maxNestedDepth (depth + 1)⟩ with
      | none =>
        rw [hrec, foldl_normStep_none] at hfold
        exact absurd hfold (by simp)
      | some trip =>
        obtain ⟨out₁, cids, g₁⟩ := trip
        rw [hrec] at hfold
        dsimp only at hfold
        obtain ⟨hcnt₁, ⟨delta₁, hout₁, hlen₁, hfresh₁⟩, hrebChild⟩ :=
          hS l dest' (paths ++ [k]) (depth + 1) false (some (mkId g₀.nextId))
            ⟨g₀.nextId + 1, max g₀.maxNestedDepth (depth + 1)⟩ out₁ cids g₁
            hrec ⟨hpropsNodup, hprops⟩
            (fun kv hkv n hn => hdest kv hkv n (by dsimp only at hn; omega))
        dsimp only at hcnt₁ hfresh₁
        have hidnot₁ : ∀ w, (mkId g₀.nextId, w) ∉ out₁ := by
          intro w hw
          rw [hout₁] at hw
          rcases List.mem_append.mp hw with hmem | hmem
          · exact hid0 w hmem
          · obtain ⟨_, n, hlo, _, hkey⟩ := hfresh₁ _ hmem
            have := mkId_injective hkey.symm
            omega
        have hoset₁ : oset out₁ (mkId g₀.nextId)
            (mkNormField (mkId g₀.nextId) pid depth false paths k
              (.mk (some t) p (some l) none e)
              { childFieldsName := some ChildFieldName.properties
                canHaveChildFields := true, hasChildFields := true
                canHaveMultiFields := false, hasMultiFields := false
                isExpanded := false, childFields := none } (some cids)) =
            out₁ ++ [(mkId g₀.nextId,
              mkNormField (mkId g₀.nextId) pid depth false paths k
                (.mk (some t) p (some l) none e)
                { childFieldsName := some ChildFieldName.properties
                  canHaveChildFields := true, hasChildFields := true
                  canHaveMultiFields := false, hasMultiFields := false
                  isExpanded := false, childFields := none }
                (some cids))] :=
          oset_append _ (olookup_eq_none_iff.mpr hidnot₁)
        rw [hoset₁] at hfold
        obtain ⟨hcnt₂, ⟨delta₂, hout₂, hlen₂, hfresh₂⟩, idsNew₂, hids₂,
            hreb₂⟩ :=
          ih _ _ _ _ _ _ hfold hWFtail hnodupTail (by
            intro kv hkv n hn
            rcases List.mem_append.mp hkv with hmem | hmem
            · rw [hout₁] at hmem
              rcases List.mem_append.mp hmem with hmem' | hmem'
              · exact hdest kv hmem' n (by omega)
              · obtain ⟨_, m, _, hmhi, hkey⟩ := hfresh₁ _ hmem'
                rw [hkey]
                intro hcontra
                have := mkId_injective hcontra
                omega
            · simp only [List.mem_singleton] at hmem
              rw [hmem]
              intro hcontra
              have := mkId_injective hcontra
              omega)
        have hcountv : countF (FieldSrc.mk (some t) p (some l) none e) =
            1 + countListF l := rfl
        refine ⟨?_, ?_, mkId g₀.nextId :: idsNew₂, ?_, ?_⟩
        · show g'.nextId = g₀.nextId + (1 + countListF l + countListF tail)
          rw [hcnt₂, hcnt₁]
          omega
        · refine ⟨delta₁ ++ [(mkId g₀.nextId,
            (mkNormField (mkId g₀.nextId) pid depth false paths k
              (FieldSrc.mk (some t) p (some l) none e)
              { childFieldsName := some ChildFieldName.properties
                canHaveChildFields := true, hasChildFields := true
                canHaveMultiFields := false, hasMultiFields := false
                isExpanded := false, childFields := none } (some cids)))] ++ delta₂, ?_, ?_, ?_⟩
          · rw [hout₂, hout₁]
            simp [List.append_assoc]
          · simp only [List.length_append, List.length_singleton]
            rw [hlen₁, hlen₂]
            show countListF l + 1 + countListF tail =
              1 + countListF l + countListF tail
            omega
          · intro kv hkv
            have hlo₁ : g₀.nextId + 1 ≤ g₁.nextId := by omega
            have hhi₁ : g₁.nextId ≤ g'.nextId := by
              rw [hcnt₂]; omega
            rcases List.mem_append.mp hkv with hmem | hmem
            · rcases List.mem_append.mp hmem with hmem' | hmem'
              · obtain ⟨hkid, n, hlo, hhi, hkey⟩ := hfresh₁ _ hmem'
                exact ⟨hkid, n, by omega, by omega, hkey⟩
              · simp only [List.mem_singleton] at hmem'
                rw [hmem']
                refine ⟨rfl, g₀.nextId, le_rfl, by omega, rfl⟩
            · obtain ⟨hkid, n, hlo, hhi, hkey⟩ := hfresh₂ _ hmem
              exact ⟨hkid, n, by omega, hhi, hkey⟩
        · rw [hids₂]
          simp
        · intro M hM d start hd hnames
          have hd' : 1 + countListF l + countListF tail ≤ d := hd
          have hdtail : countListF tail ≤ d := by omega
          have hdchild : countListF l < d := by omega
          have hout₂' : out = out₁ ++ ((mkId g₀.nextId,
              mkNormField (mkId g₀.nextId) pid depth false paths k
                (.mk (some t) p (some l) none e)
                { childFieldsName := some ChildFieldName.properties
                  canHaveChildFields := true, hasChildFields := true
                  canHaveMultiFields := false, hasMultiFields := false
                  isExpanded := false, childFields := none }
                (some cids)) :: delta₂) := by
            rw [hout₂]
            simp
          have hlookout : olookup out (mkId g₀.nextId) =
              some (mkNormField (mkId g₀.nextId) pid depth false paths k
                (.mk (some t) p (some l) none e)
                { childFieldsName := some ChildFieldName.properties
                  canHaveChildFields := true, hasChildFields := true
                  canHaveMultiFields := false, hasMultiFields := false
                  isExpanded := false, childFields := none }
                (some cids)) := by
            rw [hout₂', olookup_append_right _ hidnot₁, olookup]
            simp
          have hlookM : olookup M (mkId g₀.nextId) =
              some (mkNormField (mkId g₀.nextId) pid depth false paths k
                (.mk (some t) p (some l) none e)
                { childFieldsName := some ChildFieldName.properties
                  canHaveChildFields := true, hasChildFields := true
                  canHaveMultiFields := false, hasMultiFields := false
                  isExpanded := false, childFields := none }
                (some cids)) := by
            rw [hM g₀.nextId le_rfl (by rw [hcnt₂]; omega), hlookout]
          have hchild : deNormGo M d cids [] =
              JsResult.ok (sortTree l) := by
            refine hrebChild M ?_ d hdchild
            intro n hlo hhi
            dsimp only at hlo hhi
            rw [hM n (by omega) (by rw [hcnt₂]; omega)]
            rw [hout₂', olookup_append_left out₁]
            intro w hw
            rcases List.mem_cons.mp hw with hmem | hmem
            · have := mkId_injective (congrArg Prod.fst hmem)
              omega
            · obtain ⟨_, m, hmlo, _, hkey⟩ := hfresh₂ _ hmem
              have hkey' : mkId n = mkId m := hkey
              have := mkId_injective hkey'
              omega
          rw [List.foldl_cons]
          have hstep : deNormStep M d (JsResult.ok start) (mkId g₀.nextId) =
              JsResult.ok (start ++
                [(k, FieldSrc.mk (some t) p (some (sortTree l)) none e)]) := by
            rw [deNormStep]
            rw [hlookM]
            dsimp only [mkNormField]
            rw [hchild]
            dsimp only [rebuildField]
            congr 1
            refine oset_append _ (olookup_eq_none_iff.mpr ?_)
            intro w hw
            have hk : k ∈ start.map Prod.fst :=
              List.mem_map_of_mem Prod.fst hw
            exact hnames _ (List.mem_cons_self _ _) hk
          rw [hstep]
          rw [hreb₂ M (fun n hlo hhi => hM n (by
              first
              | omega
              | (dsimp only at hlo; omega)) hhi) d _ hdtail (by
            intro kv hkv
            simp only [List.map_append, List.mem_append, List.map_cons,
              List.mem_singleton, List.map_nil]
            rintro (hmem | hmem)
            · exact hnames kv (List.mem_cons_of_mem _ hkv) hmem
            · have hmem' : kv.1 = k := by simpa using hmem
              exact hknotin (hmem' ▸ List.mem_map_of_mem Prod.fst hkv))]
          simp [sortTreeF, sortTreeOpt, sortTree]
    | none =>
      cases flds with
      | some l =>
        have hmf : multi = false := by
          cases multi
          · rfl
          · exact absurd (hmulti rfl).2 (by simp)
        subst hmf
        have hlne : l ≠ [] := fun h => hfldsNe (by rw [h])
        have hmeta := getFieldMeta_fields_case p e
          (hfldsType (by simp)) hlne
        rw [hmeta] at hfold
        dsimp only at hfold
        rw [if_pos (show (false || true) = true from rfl)] at hfold
        rw [show nextNestedDepth
          { childFieldsName := some ChildFieldName.fields
            canHaveChildFields := false, hasChildFields := false
            canHaveMultiFields := true, hasMultiFields := true
            isExpanded := false, childFields := none } depth = depth + 1
          from rfl] at hfold
        dsimp only [containerOf, FieldSrc.fields, Option.getD] at hfold
        cases hrec : normGo fuel l dest' (paths ++ [k]) (depth + 1) true
            (some (mkId g₀.nextId))
            ⟨g₀.nextId + 1, max g₀.maxNestedDepth (depth + 1)⟩ with
        | none =>
          rw [hrec, foldl_normStep_none] at hfold
          exact absurd hfold (by simp)
        | some trip =>
          obtain ⟨out₁, cids, g₁⟩ := trip
          rw [hrec] at hfold
          dsimp only at hfold
          obtain ⟨hcnt₁, ⟨delta₁, hout₁, hlen₁, hfresh₁⟩, hrebChild⟩ :=
            hS l dest' (paths ++ [k]) (depth + 1) true
              (some (mkId g₀.nextId))
              ⟨g₀.nextId + 1, max g₀.maxNestedDepth (depth + 1)⟩ out₁ cids g₁
              hrec ⟨hfldsNodup, hflds⟩
              (fun kv hkv n hn => hdest kv hkv n (by dsimp only at hn; omega))
          dsimp only at hcnt₁ hfresh₁
          have hidnot₁ : ∀ w, (mkId g₀.nextId, w) ∉ out₁ := by
            intro w hw
            rw [hout₁] at hw
            rcases List.mem_append.mp hw with hmem | hmem
            · exact hid0 w hmem
            · obtain ⟨_, n, hlo, _, hkey⟩ := hfresh₁ _ hmem
              have := mkId_injective hkey.symm
              omega
          have hoset₁ : oset out₁ (mkId g₀.nextId)
              (mkNormField (mkId g₀.nextId) pid depth false paths k
                (.mk (some t) p none (some l) e)
                { childFieldsName := some ChildFieldName.fields
                  canHaveChildFields := false, hasChildFields := false
                  canHaveMultiFields := true, hasMultiFields := true
                  isExpanded := false, childFields := none } (some cids)) =
              out₁ ++ [(mkId g₀.nextId,
                mkNormField (mkId g₀.nextId) pid depth false paths k
                  (.mk (some t) p none (some l) e)
                  { childFieldsName := some ChildFieldName.fields
                    canHaveChildFields := false, hasChildFields := false
                    canHaveMultiFields := true, hasMultiFields := true
                    isExpanded := false, childFields := none }
                  (some cids))] :=
            oset_append _ (olookup_eq_none_iff.mpr hidnot₁)
          rw [hoset₁] at hfold
          obtain ⟨hcnt₂, ⟨delta₂, hout₂, hlen₂, hfresh₂⟩, idsNew₂, hids₂,
              hreb₂⟩ :=
            ih _ _ _ _ _ _ hfold hWFtail hnodupTail (by
              intro kv hkv n hn
              rcases List.mem_append.mp hkv with hmem | hmem
              · rw [hout₁] at hmem
                rcases List.mem_append.mp hmem with hmem' | hmem'
                · exact hdest kv hmem' n (by omega)
                · obtain ⟨_, m, _, hmhi, hkey⟩ := hfresh₁ _ hmem'
                  rw [hkey]
                  intro hcontra
                  have := mkId_injective hcontra
                  omega
              · simp only [List.mem_singleton] at hmem
                rw [hmem]
                intro hcontra
                have := mkId_injective hcontra
                omega)
          have hcountv : countF (FieldSrc.mk (some t) p none (some l) e) =
              1 + countListF l := rfl
          refine ⟨?_, ?_, mkId g₀.nextId :: idsNew₂, ?_, ?_⟩
          · show g'.nextId = g₀.nextId + (1 + countListF l + countListF tail)
            rw [hcnt₂, hcnt₁]
            omega
          · refine ⟨delta₁ ++ [(mkId g₀.nextId,
              (mkNormField (mkId g₀.nextId) pid depth false paths k
                (FieldSrc.mk (some t) p none (some l) e)
                { childFieldsName := some ChildFieldName.fields
                  canHaveChildFields := false, hasChildFields := false
                  canHaveMultiFields := true, hasMultiFields := true
                  isExpanded := false, childFields := none } (some cids)))] ++ delta₂, ?_, ?_, ?_⟩
            · rw [hout₂, hout₁]
              simp [List.append_assoc]
            · simp only [List.length_append, List.length_singleton]
              rw [hlen₁, hlen₂]
              show countListF l + 1 + countListF tail =
                1 + countListF l + countListF tail
              omega
            · intro kv hkv
              have hlo₁ : g₀.nextId + 1 ≤ g₁.nextId := by omega
              have hhi₁ : g₁.nextId ≤ g'.nextId := by
                rw [hcnt₂]; omega
              rcases List.mem_append.mp hkv with hmem | hmem
              · rcases List.mem_append.mp hmem with hmem' | hmem'
                · obtain ⟨hkid, n, hlo, hhi, hkey⟩ := hfresh₁ _ hmem'
                  exact ⟨hkid, n, by omega, by omega, hkey⟩
                · simp only [List.mem_singleton] at hmem'
                  rw [hmem']
                  refine ⟨rfl, g₀.nextId, le_rfl, by omega, rfl⟩
              · obtain ⟨hkid, n, hlo, hhi, hkey⟩ := hfresh₂ _ hmem
                exact ⟨hkid, n, by omega, hhi, hkey⟩
          · rw [hids₂]
            simp
          · intro M hM d start hd hnames
            have hd' : 1 + countListF l + countListF tail ≤ d := hd
            have hdtail : countListF tail ≤ d := by omega
            have hdchild : countListF l < d := by omega
            have hout₂' : out = out₁ ++ ((mkId g₀.nextId,
                mkNormField (mkId g₀.nextId) pid depth false paths k
                  (.mk (some t) p none (some l) e)
                  { childFieldsName := some ChildFieldName.fields
                    canHaveChildFields := false, hasChildFields := false
                    canHaveMultiFields := true, hasMultiFields := true
                    isExpanded := false, childFields := none }
                  (some cids)) :: delta₂) := by
              rw [hout₂]
              simp
            have hlookout : olookup out (mkId g₀.nextId) =
                some (mkNormField (mkId g₀.nextId) pid depth false paths k
                  (.mk (some t) p none (some l) e)
                  { childFieldsName := some ChildFieldName.fields
                    canHaveChildFields := false, hasChildFields := false
                    canHaveMultiFields := true, hasMultiFields := true
                    isExpanded := false, childFields := none }
                  (some cids)) := by
              rw [hout₂', olookup_append_right _ hidnot₁, olookup]
              simp
            have hlookM : olookup M (mkId g₀.nextId) =
                some (mkNormField (mkId g₀.nextId) pid depth false paths k
                  (.mk (some t) p none (some l) e)
                  { childFieldsName := some ChildFieldName.fields
                    canHaveChildFields := false, hasChildFields := false
                    canHaveMultiFields := true, hasMultiFields := true
                    isExpanded := false, childFields := none }
                  (some cids)) := by
              rw [hM g₀.nextId le_rfl (by rw [hcnt₂]; omega), hlookout]
            have hchild : deNormGo M d cids [] =
                JsResult.ok (sortTree l) := by
              refine hrebChild M ?_ d hdchild
              intro n hlo hhi
              dsimp only at hlo hhi
              rw [hM n (by omega) (by rw [hcnt₂]; omega)]
              rw [hout₂', olookup_append_left out₁]
              intro w hw
              rcases List.mem_cons.mp hw with hmem | hmem
              · have := mkId_injective (congrArg Prod.fst hmem)
                omega
              · obtain ⟨_, m, hmlo, _, hkey⟩ := hfresh₂ _ hmem
                have hkey' : mkId n = mkId m := hkey
                have := mkId_injective hkey'
                omega
            rw [List.foldl_cons]
            have hstep : deNormStep M d (JsResult.ok start)
                (mkId g₀.nextId) =
                JsResult.ok (start ++
                  [(k, FieldSrc.mk (some t) p none (some (sortTree l)) e)]) := by
              rw [deNormStep]
              rw [hlookM]
              dsimp only [mkNormField]
              rw [hchild]
              dsimp only [rebuildField]
              congr 1
              refine oset_append _ (olookup_eq_none_iff.mpr ?_)
              intro w hw
              have hk : k ∈ start.map Prod.fst :=
                List.mem_map_of_mem Prod.fst hw
              exact hnames _ (List.mem_cons_self _ _) hk
            rw [hstep]
            rw [hreb₂ M (fun n hlo hhi => hM n (by
                first
                | omega
                | (dsimp only at hlo; omega)) hhi) d _ hdtail (by
              intro kv hkv
              simp only [List.map_append, List.mem_append, List.map_cons,
                List.mem_singleton, List.map_nil]
              rintro (hmem | hmem)
              · exact hnames kv (List.mem_cons_of_mem _ hkv) hmem
              · have hmem' : kv.1 = k := by simpa using hmem
                exact hknotin (hmem' ▸ List.mem_map_of_mem Prod.fst hkv))]
            simp [sortTreeF, sortTreeOpt, sortTree]
      | none =>
        have hcond : ((getFieldMeta (.mk (some t) p none none e)
              multi).hasChildFields ||
            (getFieldMeta (.mk (some t) p none none e)
              multi).hasMultiFields) = false := by
          cases multi
          · rcases getFieldMeta_leaf_case (some t) p e with ⟨h1, h2⟩
            rw [h1, h2]
            rfl
          · rcases getFieldMeta_multiField (.mk (some t) p none none e) with
              ⟨_, h1, _, h2, _⟩
            rw [h1, h2]
            rfl
        rw [if_neg (by rw [hcond]; simp)] at hfold
        have hoset₀ : oset dest' (mkId g₀.nextId)
            (mkNormField (mkId g₀.nextId) pid depth multi paths k
              (.mk (some t) p none none e)
              (getFieldMeta (.mk (some t) p none none e) multi) none) =
            dest' ++ [(mkId g₀.nextId,
              mkNormField (mkId g₀.nextId) pid depth multi paths k
                (.mk (some t) p none none e)
                (getFieldMeta (.mk (some t) p none none e) multi) none)] :=
          oset_append _ (olookup_eq_none_iff.mpr hid0)
        rw [hoset₀] at hfold
        obtain ⟨hcnt₂, ⟨delta₂, hout₂, hlen₂, hfresh₂⟩, idsNew₂, hids₂,
            hreb₂⟩ :=
          ih _ _ _ _ _ _ hfold hWFtail hnodupTail (by
            intro kv hkv n hn
            dsimp only at hn
            rcases List.mem_append.mp hkv with hmem | hmem
            · exact hdest kv hmem n (by omega)
            · simp only [List.mem_singleton] at hmem
              rw [hmem]
              intro hcontra
              have := mkId_injective hcontra
              omega)
        dsimp only at hcnt₂ hfresh₂
        have hcountv : countF (FieldSrc.mk (some t) p none none e) = 1 :=
          rfl
        refine ⟨?_, ?_, mkId g₀.nextId :: idsNew₂, ?_, ?_⟩
        · show g'.nextId = g₀.nextId + (1 + countListF tail)
          rw [hcnt₂]
          omega
        · refine ⟨[(mkId g₀.nextId,
            (mkNormField (mkId g₀.nextId) pid depth multi paths k
              (FieldSrc.mk (some t) p none none e)
              (getFieldMeta (FieldSrc.mk (some t) p none none e) multi) none))] ++ delta₂, ?_, ?_, ?_⟩
          · rw [hout₂]
            simp [List.append_assoc]
          · simp only [List.length_append, List.length_singleton]
            rw [hlen₂]
            show 1 + countListF tail = 1 + countListF tail
            rfl
          · intro kv hkv
            rcases List.mem_append.mp hkv with hmem | hmem
            · simp only [List.mem_singleton] at hmem
              rw [hmem]
              refine ⟨rfl, g₀.nextId, le_rfl, by omega, rfl⟩
            · obtain ⟨hkid, n, hlo, hhi, hkey⟩ := hfresh₂ _ hmem
              exact ⟨hkid, n, by omega, hhi, hkey⟩
        · rw [hids₂]
          simp
        · intro M hM d start hd hnames
          have hd' : 1 + countListF tail ≤ d := hd
          have hdtail : countListF tail ≤ d := by omega
          have hout₂' : out = dest' ++ ((mkId g₀.nextId,
              mkNormField (mkId g₀.nextId) pid depth multi paths k
                (.mk (some t) p none none e)
                (getFieldMeta (.mk (some t) p none none e) multi) none) ::
              delta₂) := by
            rw [hout₂]
            simp
          have hlookout : olookup out (mkId g₀.nextId) =
              some (mkNormField (mkId g₀.nextId) pid depth multi paths k
                (.mk (some t) p none none e)
                (getFieldMeta (.mk (some t) p none none e) multi) none) := by
            rw [hout₂', olookup_append_right _ hid0, olookup]
            simp
          have hlookM : olookup M (mkId g₀.nextId) =
              some (mkNormField (mkId g₀.nextId) pid depth multi paths k
                (.mk (some t) p none none e)
                (getFieldMeta (.mk (some t) p none none e) multi) none) := by
            rw [hM g₀.nextId le_rfl (by rw [hcnt₂]; omega), hlookout]
          rw [List.foldl_cons]
          have hstep : deNormStep M d (JsResult.ok start) (mkId g₀.nextId) =
              JsResult.ok (start ++
                [(k, FieldSrc.mk (some t) p none none e)]) := by
            rw [deNormStep]
            rw [hlookM]
            dsimp only [mkNormField]
            dsimp only [rebuildField]
            congr 1
            refine oset_append _ (olookup_eq_none_iff.mpr ?_)
            intro w hw
            have hk : k ∈ start.map Prod.fst :=
              List.mem_map_of_mem Prod.fst hw
            exact hnames _ (List.mem_cons_self _ _) hk
          rw [hstep]
          rw [hreb₂ M (fun n hlo hhi => hM n (by
              first
              | omega
              | (dsimp only at hlo; omega)) hhi) d _ hdtail (by
            intro kv hkv
            simp only [List.map_append, List.mem_append, List.map_cons,
              List.mem_singleton, List.map_nil]
            rintro (hmem | hmem)
            · exact hnames kv (List.mem_cons_of_mem _ hkv) hmem
            · have hmem' : kv.1 = k := by simpa using hmem
              exact hknotin (hmem' ▸ List.mem_map_of_mem Prod.fst hkv))]
          simp [sortTreeF, sortTreeOpt]

/-- Rebuild lemma for the recursive walk: on well-formed input,
`normalizeFields` draws one id per node, appends exactly the new entries,
and `deNormalizePaths` rebuilds the (recursively sibling-sorted) input
from any map that agrees with the produced one on the drawn id range. -/
theorem normGo_rebuild :
    ∀ fuel props dest pa d mu pi g out ids g',
      normGo fuel props dest pa d mu pi g = some (out, ids, g') →
      WFFields mu props →
      (∀ kv ∈ dest, ∀ n, g.nextId ≤ n → kv.1 ≠ mkId n) →
      g'.nextId = g.nextId + countListF props ∧
      (∃ delta, out = dest ++ delta ∧ delta.length = countListF props ∧
        FreshEntries delta g.nextId g'.nextId) ∧
      ∀ M, (∀ n, g.nextId ≤ n → n < g'.nextId →
          olookup M (mkId n) = olookup out (mkId n)) →
        ∀ dd, countListF props < dd →
          deNormGo M dd ids [] = JsResult.ok (sortTree props) := by
  intro fuel
  induction fuel with
  | zero =>
    intro props dest pa d mu pi g out ids g' h _ _
    simp [normGo_zero] at h
  | succ fuel ihf =>
    intro props dest pa d mu pi g out ids g' h hWF hdest
    rw [normGo_succ] at h
    obtain ⟨hcnt, ⟨delta, hout, hlen, hfresh⟩, idsNew, hids, hreb⟩ :=
      normGo_rebuild_fold fuel pa d mu pi ihf (sortByName props) dest [] g
        out ids g' h
        (fun kv hkv => hWF.2 kv (mem_sortByName hkv))
        (namesNodup_sortByName hWF.1) hdest
    refine ⟨by rw [hcnt, countListF_sortByName], ⟨delta, hout,
      by rw [hlen, countListF_sortByName], hfresh⟩, ?_⟩
    intro M hM dd hdd
    cases dd with
    | zero => exact absurd hdd (by omega)
    | succ dd =>
      rw [deNormGo_succ]
      rw [hids, List.nil_append]
      rw [hreb M (fun n hlo hhi => hM n hlo hhi) dd []
        (by rw [countListF_sortByName]; omega)
        (by intro kv hkv; simp)]
      rw [List.nil_append, sortTree_eq_map_sort]

theorem olookup_eq_none_iff_keys {α : Type} {m : List (String × α)}
    {k : String} : olookup m k = none ↔ k ∉ m.map Prod.fst := by
  rw [olookup_eq_none_iff]
  constructor
  · intro h hk
    rcases List.mem_map.mp hk with ⟨x, hx, hxk⟩
    exact h x.2 (by rw [← hxk]; exact hx)
  · intro h v hv
    exact h (List.mem_map_of_mem Prod.fst hv)

theorem mem_oset_of_ne {α : Type} {m : List (String × α)} {k : String}
    {v : α} {e : String × α} (he : e ∈ m) (hne : e.1 ≠ k) :
    e ∈ oset m k v := by
  induction m with
  | nil => simp at he
  | cons kv rest ih =>
    rw [oset]
    rcases List.mem_cons.mp he with h1 | h1
    · by_cases hk : kv.1 = k
      · rw [h1] at hne; exact absurd hk hne
      · rw [if_neg (by simpa using hk)]
        rw [h1]
        exact List.mem_cons_self _ _
    · by_cases hk : kv.1 = k
      · rw [if_pos (by simpa using hk)]
        exact List.mem_cons_of_mem _ h1
      · rw [if_neg (by simpa using hk)]
        exact List.mem_cons_of_mem _ (ih h1)

theorem keys_oset_sub {α : Type} {m : List (String × α)} {k : String}
    {v : α} {a : String} (h : a ∈ (oset m k v).map Prod.fst) :
    a ∈ m.map Prod.fst ∨ a = k := by
  rcases List.mem_map.mp h with ⟨x, hx, hxa⟩
  rcases mem_oset hx with h1 | h1
  · exact Or.inl (hxa ▸ List.mem_map_of_mem Prod.fst h1)
  · right
    rw [← hxa, h1]

theorem oset_keys_nodup {α : Type} {m : List (String × α)} {k : String}
    (v : α) (h : namesNodup m) : namesNodup (oset m k v) := by
  rw [namesNodup] at h ⊢
  induction m with
  | nil => simp [oset]
  | cons kv rest ih =>
    simp only [List.map_cons, List.nodup_cons] at h
    rw [oset]
    by_cases hk : kv.1 = k
    · rw [if_pos (by simpa using hk)]
      simp only [List.map_cons, List.nodup_cons]
      exact ⟨by rw [← hk]; exact h.1, h.2⟩
    · rw [if_neg (by simpa using hk)]
      simp only [List.map_cons, List.nodup_cons]
      refine ⟨?_, ih h.2⟩
      intro hmem
      rcases keys_oset_sub hmem with h1 | h1
      · exact h.1 h1
      · exact hk h1

/-- The forward alias pass, folded over any suffix of the original map's
entries whose keys were not yet recorded, preserves `AliasInv`. -/
theorem aliasStep_foldl_invariant (B : ById) (hnodup : namesNodup B)
    (hkc : ∀ kv ∈ B, kv.2.id = kv.1) :
    ∀ rem al cur, (∀ y ∈ rem, y ∈ B) → namesNodup rem →
      AliasInv B al cur (rem.map Prod.fst) →
      AliasInv B (rem.foldl aliasStep (al, cur)).1
        (rem.foldl aliasStep (al, cur)).2 [] := by
  intro rem
  induction rem with
  | nil =>
    intro al cur _ _ hinv
    exact hinv
  | cons x rem' ih =>
    intro al cur hsub hnd hinv
    rw [List.foldl_cons]
    obtain ⟨hA1, hA2, hA3, hA4, hA5, hA6⟩ := hinv
    simp only [namesNodup, List.map_cons, List.nodup_cons] at hnd
    obtain ⟨hx1ne, hndTail⟩ := hnd
    have hxB : x ∈ B := hsub x (List.mem_cons_self _ _)
    have hxnotal : ∀ e ∈ al, x.1 ∉ e.2 := fun e he hxin =>
      hA6 e he x.1 hxin (by simp)
    have hxBlook : olookup B x.1 = some x.2 :=
      olookup_of_mem_nodup hnodup hxB
    have hxlook : olookup cur x.1 = some x.2 := by
      rw [hA4 x.1 hxnotal, hxBlook]
    have hsub' : ∀ y ∈ rem', y ∈ B :=
      fun y hy => hsub y (List.mem_cons_of_mem _ hy)
    have hweak : AliasInv B al cur (rem'.map Prod.fst) :=
      ⟨hA1, hA2, hA3, hA4, hA5, fun e he a ha hmem =>
        hA6 e he a ha (by simp [hmem])⟩
    cases htype : x.2.source.type == some "alias" with
    | false =>
      have hstep : aliasStep (al, cur) x = (al, cur) := by
        simp only [aliasStep, hxlook, htype]
        rfl
      rw [hstep]
      exact ih al cur hsub' hndTail hweak
    | true =>
      cases hpath : x.2.source.path with
      | none =>
        have hstep : aliasStep (al, cur) x = (al, cur) := by
          simp only [aliasStep, hxlook, htype, hpath]
          rfl
        rw [hstep]
        exact ih al cur hsub' hndTail hweak
      | some declared =>
        cases hfind : cur.find?
            (fun kv => joinPath kv.2.path == declared) with
        | none =>
          have hstep : aliasStep (al, cur) x = (al, cur) := by
            simp only [aliasStep, hxlook, htype, hpath, hfind]
            rfl
          rw [hstep]
          exact ih al cur hsub' hndTail hweak
        | some target =>
          obtain ⟨b, hbB, hbkey, hbeq⟩ :=
            hA2 target (List.mem_of_find?_eq_some hfind)
          have hcomp := eqUpToSourcePath_components hbeq
          have htid : target.2.id = b.1 := by
            rw [hcomp.1, hkc b hbB]
          have hblook : olookup B b.1 = some b.2 :=
            olookup_of_mem_nodup hnodup hbB
          have hbpath : joinPath b.2.path = declared := by
            rw [← hcomp.2.2.2.2.1]
            simpa using List.find?_some hfind
          have hstep : aliasStep (al, cur) x =
              (oset al b.1 ((olookup al b.1).getD [] ++ [x.1]),
               oset cur x.1 (pathUpd x.2 (some b.1))) := by
            simp only [aliasStep, hxlook, htype, hpath, hfind, htid]
            rfl
          rw [hstep]
          have hnewmem : (b.1, (olookup al b.1).getD [] ++ [x.1]) ∈
              oset al b.1 ((olookup al b.1).getD [] ++ [x.1]) :=
            olookup_eq_some_mem (olookup_oset_self _ _ _)
          refine ih _ _ hsub' hndTail ⟨?_, ?_, ?_, ?_, ?_, ?_⟩
          · rw [oset_keys_of_lookup _ hxlook]
            exact hA1
          · intro c hc
            rcases mem_oset hc with h | h
            · exact hA2 c h
            · refine ⟨x, hxB, by rw [h], ?_⟩
              rw [h]
              exact eqUpToSourcePath_update _ (eqUpToSourcePath_refl x.2)
          · intro e he a ha
            rcases mem_oset he with hein | hein
            · obtain ⟨f₀, tf, hBa, hcura, hBe, hfp⟩ := hA3 e hein a ha
              have hax : a ≠ x.1 := fun hh =>
                (hA6 e hein a ha) (by rw [hh]; simp)
              refine ⟨f₀, tf, hBa, ?_, hBe, hfp⟩
              rw [olookup_oset_ne _ hax]
              exact hcura
            · rw [hein] at ha ⊢
              rcases List.mem_append.mp ha with hap | hax1
              · cases holal : olookup al b.1 with
                | none => rw [holal] at hap; simp at hap
                | some lst =>
                  rw [holal] at hap
                  have hentry : (b.1, lst) ∈ al := olookup_eq_some_mem holal
                  obtain ⟨f₀, tf, hBa, hcura, hBe, hfp⟩ :=
                    hA3 (b.1, lst) hentry a hap
                  have hax : a ≠ x.1 := fun hh =>
                    (hA6 (b.1, lst) hentry a hap) (by rw [hh]; simp)
                  refine ⟨f₀, tf, hBa, ?_, hBe, hfp⟩
                  rw [olookup_oset_ne _ hax]
                  exact hcura
              · simp only [List.mem_singleton] at hax1
                subst hax1
                refine ⟨x.2, b.2, hxBlook, ?_, hblook, ?_⟩
                · rw [olookup_oset_self]
                · rw [hpath, ← hbpath]
          · intro k hk
            have hklst : k ∉ (olookup al b.1).getD [] ++ [x.1] :=
              hk _ hnewmem
            have hkal : ∀ e ∈ al, k ∉ e.2 := by
              intro e he hkin
              by_cases hekey : e.1 = b.1
              · have holal : olookup al b.1 = some e.2 := by
                  rw [← hekey]
                  exact olookup_of_mem_nodup hA5 he
                apply hklst
                rw [holal]
                exact List.mem_append.mpr (Or.inl hkin)
              · exact hk e (mem_oset_of_ne he hekey) hkin
            have hkx : k ≠ x.1 := by
              intro hh
              apply hklst
              rw [hh]
              exact List.mem_append.mpr (Or.inr (by simp))
            rw [olookup_oset_ne _ hkx]
            exact hA4 k hkal
          · exact oset_keys_nodup _ hA5
          · intro e he a ha
            rcases mem_oset he with hein | hein
            · exact fun hmem => hA6 e hein a ha (by simp [hmem])
            · rw [hein] at ha
              rcases List.mem_append.mp ha with hap | hax1
              · cases holal : olookup al b.1 with
                | none => rw [holal] at hap; simp at hap
                | some lst =>
                  rw [holal] at hap
                  have hentry : (b.1, lst) ∈ al := olookup_eq_some_mem holal
                  exact fun hmem =>
                    hA6 (b.1, lst) hentry a hap (by simp [hmem])
              · simp only [List.mem_singleton] at hax1
                rw [hax1]
                exact hx1ne

/-- The inner undo fold rewrites exactly the listed ids' `source.path`
(idempotently) and touches nothing else. -/
theorem aliasUndoInner_foldl (p : String) :
    ∀ (lst : List String) (upd : ById),
      ((lst.foldl (aliasUndoInner p) upd).map Prod.fst =
        upd.map Prod.fst) ∧
      (∀ kk, kk ∉ lst →
        olookup (lst.foldl (aliasUndoInner p) upd) kk = olookup upd kk) ∧
      (∀ a ∈ lst, olookup (lst.foldl (aliasUndoInner p) upd) a =
        (olookup upd a).map (fun f => pathUpd f (some p))) := by
  intro lst
  induction lst with
  | nil =>
    intro upd
    exact ⟨rfl, fun kk _ => rfl, fun a ha => absurd ha (by simp)⟩
  | cons a lst' ih =>
    intro upd
    rw [List.foldl_cons]
    have hkeys1 : (aliasUndoInner p upd a).map Prod.fst =
        upd.map Prod.fst := by
      cases h : olookup upd a with
      | none => rw [aliasUndoInner, h]
      | some f =>
        rw [aliasUndoInner, h]
        exact oset_keys_of_lookup _ h
    have hlook1ne : ∀ kk, kk ≠ a →
        olookup (aliasUndoInner p upd a) kk = olookup upd kk := by
      intro kk hkk
      cases h : olookup upd a with
      | none => rw [aliasUndoInner, h]
      | some f =>
        rw [aliasUndoInner, h]
        exact olookup_oset_ne _ hkk
    have hlook1a : olookup (aliasUndoInner p upd a) a =
        (olookup upd a).map (fun f => pathUpd f (some p)) := by
      cases h : olookup upd a with
      | none =>
        rw [aliasUndoInner, h]
        show olookup upd a = Option.map (fun f => pathUpd f (some p)) none
        rw [h]
        rfl
      | some f =>
        rw [aliasUndoInner, h]
        exact olookup_oset_self _ _ _
    obtain ⟨ihk, ihne, iha⟩ := ih (aliasUndoInner p upd a)
    refine ⟨by rw [ihk, hkeys1], ?_, ?_⟩
    · intro kk hkk
      have hkka : kk ≠ a := fun hh => hkk (by rw [hh]; simp)
      have hkklst : kk ∉ lst' := fun hh => hkk (by simp [hh])
      rw [ihne kk hkklst, hlook1ne kk hkka]
    · intro b hb
      by_cases hblst : b ∈ lst'
      · rw [iha b hblst]
        by_cases hba : b = a
        · subst hba
          rw [hlook1a]
          cases h : olookup upd b with
          | none => rfl
          | some f => rfl
        · rw [hlook1ne b hba]
      · have hba : b = a := by
          rcases List.mem_cons.mp hb with h | h
          · exact h
          · exact absurd h hblst
        subst hba
        rw [ihne b hblst, hlook1a]

/-- The outer undo fold, given the final forward invariant restricted to
the remaining alias entries, restores every lookup to the original map. -/
theorem aliasUndo_foldl (B : ById) :
    ∀ (alRem : List (String × List String)) (upd : ById),
      (∀ e ∈ alRem, ∀ a ∈ e.2, ∃ f₀ tf, olookup B a = some f₀ ∧
        olookup upd a = some (pathUpd f₀ (some e.1)) ∧
        olookup B e.1 = some tf ∧
        f₀.source.path = some (joinPath tf.path)) →
      (∀ e₁ ∈ alRem, ∀ e₂ ∈ alRem, e₁ ≠ e₂ → ∀ a, a ∈ e₁.2 → a ∉ e₂.2) →
      alRem.Nodup →
      (∀ kk, (olookup upd kk).map (fun f => joinPath f.path) =
        (olookup B kk).map (fun f => joinPath f.path)) →
      (∀ kk, (∀ e ∈ alRem, kk ∉ e.2) → olookup upd kk = olookup B kk) →
      ∀ kk, olookup (alRem.foldl aliasUndoOuter upd) kk =
        olookup B kk := by
  intro alRem
  induction alRem with
  | nil =>
    intro upd _ _ _ _ hrest kk
    exact hrest kk (fun e he => absurd he (by simp))
  | cons e alRem' ih =>
    intro upd hA3 hdisj hnd hpaths hrest kk
    rw [List.foldl_cons]
    simp only [List.nodup_cons] at hnd
    obtain ⟨henotin, hndTail⟩ := hnd
    have hresta : ∀ a ∈ e.2,
        olookup (aliasUndoOuter upd e) a = olookup B a := by
      intro a ha
      obtain ⟨f₀, tf, hBa, hupda, hBe, hfp⟩ :=
        hA3 e (List.mem_cons_self _ _) a ha
      have hpe := hpaths e.1
      rw [hBe] at hpe
      cases hue : olookup upd e.1 with
      | none => rw [hue] at hpe; simp at hpe
      | some target =>
        rw [hue] at hpe
        have hjoin : joinPath target.path = joinPath tf.path := by
          simpa using hpe
        have houter2 : aliasUndoOuter upd e =
            e.2.foldl (aliasUndoInner (joinPath target.path)) upd := by
          rw [aliasUndoOuter, hue]
        obtain ⟨_, _, ha1⟩ :=
          aliasUndoInner_foldl (joinPath target.path) e.2 upd
        rw [houter2, ha1 a ha, hupda, hBa]
        have hres : pathUpd (pathUpd f₀ (some e.1))
            (some (joinPath target.path)) = f₀ := by
          rw [pathUpd_pathUpd, hjoin, ← hfp]
          exact pathUpd_self f₀
        simp only [Option.map_some']
        rw [hres]
    have hrestne : ∀ kk', kk' ∉ e.2 →
        olookup (aliasUndoOuter upd e) kk' = olookup upd kk' := by
      intro kk' hkk'
      cases hue : olookup upd e.1 with
      | none =>
        have houter2 : aliasUndoOuter upd e =
            e.2.foldl (aliasUndoInner "") upd := by
          rw [aliasUndoOuter, hue]
        obtain ⟨_, hne1, _⟩ := aliasUndoInner_foldl "" e.2 upd
        rw [houter2]
        exact hne1 kk' hkk'
      | some target =>
        have houter2 : aliasUndoOuter upd e =
            e.2.foldl (aliasUndoInner (joinPath target.path)) upd := by
          rw [aliasUndoOuter, hue]
        obtain ⟨_, hne1, _⟩ :=
          aliasUndoInner_foldl (joinPath target.path) e.2 upd
        rw [houter2]
        exact hne1 kk' hkk'
    refine ih (aliasUndoOuter upd e) ?_ ?_ hndTail ?_ ?_ kk
    · intro e' he' a ha
      have hne : e' ≠ e := fun hh => henotin (hh ▸ he')
      have hanotine : a ∉ e.2 :=
        hdisj e' (List.mem_cons_of_mem _ he') e (List.mem_cons_self _ _)
          hne a ha
      obtain ⟨f₀, tf, hBa, hupda, hBe, hfp⟩ :=
        hA3 e' (List.mem_cons_of_mem _ he') a ha
      exact ⟨f₀, tf, hBa, by rw [hrestne a hanotine]; exact hupda, hBe, hfp⟩
    · intro e₁ he₁ e₂ he₂ hne a ha
      exact hdisj e₁ (List.mem_cons_of_mem _ he₁) e₂
        (List.mem_cons_of_mem _ he₂) hne a ha
    · intro kk'
      by_cases hkk' : kk' ∈ e.2
      · rw [hresta kk' hkk']
      · rw [hrestne kk' hkk']
        exact hpaths kk'
    · intro kk' hkk'
      by_cases hke : kk' ∈ e.2
      · exact hresta kk' hke
      · rw [hrestne kk' hke]
        refine hrest kk' ?_
        intro e' he'
        rcases List.mem_cons.mp he' with h | h
        · rw [h]; exact hke
        · exact hkk' e' h

/-- Composing the two alias passes is the identity on lookups: over a map
with distinct, id-consistent keys, `replaceAliasIdByAliasPath` undoes
exactly what `replaceAliasPathByAliasId` rewrote. -/
theorem aliasPasses_lookup {B : ById} (hnodup : namesNodup B)
    (hkc : ∀ kv ∈ B, kv.2.id = kv.1) :
    ∀ k, olookup (replaceAliasIdByAliasPath
        (replaceAliasPathByAliasId B).1 (replaceAliasPathByAliasId B).2) k =
      olookup B k := by
  have hinit : AliasInv B [] B (B.map Prod.fst) := by
    refine ⟨rfl, ?_, ?_, ?_, ?_, ?_⟩
    · intro c hc
      exact ⟨c, hc, rfl, eqUpToSourcePath_refl c.2⟩
    · intro e he
      simp at he
    · intro k _
      rfl
    · simp [namesNodup]
    · intro e he
      simp at he
  obtain ⟨hA1, hA2, hA3, hA4, hA5, _⟩ :=
    aliasStep_foldl_invariant B hnodup hkc B [] B (fun y hy => hy)
      hnodup hinit
  intro k
  rw [show replaceAliasPathByAliasId B =
    B.foldl aliasStep (([] : Aliases), B) from rfl]
  rw [replaceAliasIdByAliasPath_foldl]
  refine aliasUndo_foldl B _ _ hA3 ?_ (List.Nodup.of_map _ hA5) ?_ hA4 k
  · intro e₁ he₁ e₂ he₂ hne a ha₁ ha₂
    obtain ⟨f₀, _, hBa, hcura, _, _⟩ := hA3 e₁ he₁ a ha₁
    obtain ⟨f₀', _, hBa', hcura', _, _⟩ := hA3 e₂ he₂ a ha₂
    have hf : f₀ = f₀' := by
      have := hBa.symm.trans hBa'
      simpa using this
    subst hf
    have heq : pathUpd f₀ (some e₁.1) = pathUpd f₀ (some e₂.1) := by
      have := hcura.symm.trans hcura'
      simpa using this
    have hkey : e₁.1 = e₂.1 := by
      have := congrArg (fun f => f.source.path) heq
      simpa [pathUpd] using this
    exact hne (key_unique_of_nodup hA5 he₁ he₂ hkey)
  · intro kk
    cases hc : olookup (B.foldl aliasStep (([] : Aliases), B)).2 kk with
    | some f =>
      obtain ⟨b, hbB, hbk, hbeq⟩ := hA2 _ (olookup_eq_some_mem hc)
      have hb2 : b = (kk, b.2) := by
        cases b with
        | mk b1 b2 =>
          simp only [Prod.mk.injEq, and_true]
          simpa using hbk.symm
      have hBk : olookup B kk = some b.2 :=
        olookup_of_mem_nodup hnodup (hb2 ▸ hbB)
      rw [hBk]
      simp only [Option.map_some']
      rw [(eqUpToSourcePath_components hbeq).2.2.2.2.1]
    | none =>
      have hnk : kk ∉ (B.foldl aliasStep (([] : Aliases), B)).2.map
          Prod.fst := olookup_eq_none_iff_keys.mp hc
      rw [hA1] at hnk
      rw [olookup_eq_none_iff_keys.mpr hnk]

/-- A leaf node (no containers) is well formed in either container kind. -/
theorem wf_leaf (multi : Bool) (t : String) (p : Option String)
    (e : List (String × String)) :
    WFField multi (.mk (some t) p none none e) := by
  refine WFField.mk multi t p none none e (fun _ => ⟨rfl, rfl⟩)
    (fun h => absurd rfl h) (fun h => absurd rfl h) (by simp) (by simp)
    (fun _ => rfl) (by simp [namesNodup]) (by simp [namesNodup]) ?_ ?_
  · intro kv hkv
    exact absurd hkv (by simp)
  · intro kv hkv
    exact absurd hkv (by simp)

/-- Master lemma for the path-update worker: on success over a
key-consistent map, the keys are unchanged, and every entry is either an
entry of the starting map or a rewrite — of the call's own field or of an
original entry — that changes only `path`, to a value extending the
call's recomputed prefix `paths ++ [name]`. -/
theorem updatePathGo_fold (byId : ById) (fuel : Nat)
    (f : NormalizedField) (paths : List String) (upd : ById)
    (hcond : (f.hasChildFields || f.hasMultiFields) = true)
    {childIds : List String} (hcf : f.childFields = some childIds) :
    updatePathGo byId (fuel + 1) f paths upd =
      childIds.foldl
        (updPathStep byId fuel (paths ++ [f.source.name]))
        (.ok (oset upd f.id
          { f with path := paths ++ [f.source.name] })) := by
  simp only [updatePathGo]
  rw [if_pos hcond, hcf]
  rw [show (if paths.isEmpty then [f.source.name]
      else paths ++ [f.source.name]) = paths ++ [f.source.name] by
    cases paths <;> simp]
  rfl

theorem updatePathGo_leaf (byId : ById) (fuel : Nat)
    (f : NormalizedField) (paths : List String) (upd : ById)
    (hcond : (f.hasChildFields || f.hasMultiFields) = false) :
    updatePathGo byId (fuel + 1) f paths upd =
      .ok (oset upd f.id { f with path := paths ++ [f.source.name] }) := by
  simp only [updatePathGo]
  rw [if_neg (by simp [hcond])]
  rw [show (if paths.isEmpty then [f.source.name]
      else paths ++ [f.source.name]) = paths ++ [f.source.name] by
    cases paths <;> simp]

theorem updatePathGo_master (byId : ById)
    (hkc : ∀ kv ∈ byId, kv.2.id = kv.1) :
    ∀ fuel f paths upd res,
      updatePathGo byId fuel f paths upd = .ok res →
      f.id ∈ upd.map Prod.fst →
      upd.map Prod.fst = byId.map Prod.fst →
      res.map Prod.fst = byId.map Prod.fst ∧
      ∀ kv ∈ res, kv ∈ upd ∨
        (((kv.1 = f.id ∧ kv.2 = { f with path := kv.2.path }) ∨
          ∃ f0, (kv.1, f0) ∈ byId ∧ kv.2 = { f0 with path := kv.2.path }) ∧
         (∃ q, kv.2.path = paths ++ [f.source.name] ++ q)) := by
  intro fuel
  induction fuel with
  | zero =>
    intro f paths upd res h _ _
    exact absurd h (by simp [updatePathGo])
  | succ fuel ih =>
    intro f paths upd res h hmem hkeys
    have hlook : ∃ v, olookup upd f.id = some v := by
      cases h' : olookup upd f.id with
      | none =>
        exact absurd (hkeys ▸ olookup_eq_none_iff_keys.mp h') (by
          intro hc
          exact hc (hkeys ▸ hmem))
      | some v => exact ⟨v, rfl⟩
    obtain ⟨v, hv⟩ := hlook
    have hkeys₀ : (oset upd f.id
        { f with path := paths ++ [f.source.name] }).map Prod.fst =
        byId.map Prod.fst := by
      rw [oset_keys_of_lookup _ hv, hkeys]
    have hQ₀ : ∀ kv ∈ oset upd f.id
        { f with path := paths ++ [f.source.name] }, kv ∈ upd ∨
        (((kv.1 = f.id ∧ kv.2 = { f with path := kv.2.path }) ∨
          ∃ f0, (kv.1, f0) ∈ byId ∧ kv.2 = { f0 with path := kv.2.path }) ∧
         (∃ q, kv.2.path = paths ++ [f.source.name] ++ q)) := by
      intro kv hkv
      rcases mem_oset hkv with hm | hm
      · exact Or.inl hm
      · right
        rw [hm]
        exact ⟨Or.inl ⟨rfl, rfl⟩, [], by simp⟩
    by_cases hcond : (f.hasChildFields || f.hasMultiFields) = true
    · cases hcf : f.childFields with
      | none =>
        rw [updatePathGo] at h
        rw [if_pos hcond, hcf] at h
        exact absurd h (by simp)
      | some childIds =>
        rw [updatePathGo_fold byId fuel f paths upd hcond hcf] at h
        have hpost := foldl_induct
          (C := fun (acc : JsResult ById) => ∀ r, acc = .ok r →
            r.map Prod.fst = byId.map Prod.fst ∧
            ∀ kv ∈ r, kv ∈ upd ∨
              (((kv.1 = f.id ∧ kv.2 = { f with path := kv.2.path }) ∨
                ∃ f0, (kv.1, f0) ∈ byId ∧
                  kv.2 = { f0 with path := kv.2.path }) ∧
               (∃ q, kv.2.path = paths ++ [f.source.name] ++ q)))
          (updPathStep byId fuel (paths ++ [f.source.name])) childIds
          (.ok (oset upd f.id
            { f with path := paths ++ [f.source.name] })) ?_ ?_
        · rw [← hcf]
          exact hpost res h
        · intro r hr
          simp only [JsResult.ok.injEq] at hr
          rw [← hr]
          exact ⟨hkeys₀, hQ₀⟩
        · intro a x ha hx r hr
          cases a with
          | typeError => simp [updPathStep] at hr
          | outOfFuel => simp [updPathStep] at hr
          | ok upd₂ =>
            obtain ⟨hkeys₂, hQ₂⟩ := ha upd₂ rfl
            rw [updPathStep] at hr
            cases hcx : olookup byId x with
            | none =>
              rw [hcx] at hr
              exact absurd hr (by simp)
            | some cf =>
              rw [hcx] at hr
              have hcfmem : (x, cf) ∈ byId := olookup_eq_some_mem hcx
              have hcfid : cf.id = x := hkc (x, cf) hcfmem
              have hmem₂ : cf.id ∈ upd₂.map Prod.fst := by
                rw [hkeys₂, hcfid]
                exact List.mem_map_of_mem Prod.fst hcfmem
              obtain ⟨hkeysr, hQr⟩ :=
                ih cf (paths ++ [f.source.name]) upd₂ r hr hmem₂ hkeys₂
              refine ⟨hkeysr, ?_⟩
              intro kv hkv
              rcases hQr kv hkv with hm | ⟨hshape, q, hq⟩
              · exact hQ₂ kv hm
              · right
                refine ⟨?_, [cf.source.name] ++ q, by
                  rw [hq]; simp⟩
                rcases hshape with ⟨hk1, hk2⟩ | ⟨f0, hf0, hk2⟩
                · exact Or.inr ⟨cf, by rw [hk1, hcfid]; exact hcfmem, hk2⟩
                · exact Or.inr ⟨f0, hf0, hk2⟩
    · rw [updatePathGo_leaf byId fuel f paths upd
        (by cases hcc : (f.hasChildFields || f.hasMultiFields) with
            | true => exact absurd hcc hcond
            | false => rfl)] at h
      simp only [JsResult.ok.injEq] at h
      rw [← h]
      exact ⟨hkeys₀, hQ₀⟩

/-- The common tail of the rename frame theorem, once the worker call and
the final lookup have succeeded. -/
theorem updatePath_tail (field : NormalizedField) (byId : ById)
    (hkc : ∀ kv ∈ byId, kv.2.id = kv.1)
    (hmem : field.id ∈ byId.map Prod.fst)
    (paths : List String) (updated : ById)
    (hupd : updatePathGo byId (byId.length + 1) field paths byId =
      .ok updated) :
    updated.map Prod.fst = byId.map Prod.fst ∧
    (∀ kv ∈ updated, kv ∈ byId ∨
      (kv.1 = field.id ∧ kv.2 = { field with path := kv.2.path }) ∨
      ∃ f0, (kv.1, f0) ∈ byId ∧ kv.2 = { f0 with path := kv.2.path }) ∧
    ∀ kv ∈ updated, kv ∉ byId →
      ∃ q, kv.2.path = paths ++ [field.source.name] ++ q := by
  obtain ⟨hkeys, hQ⟩ := updatePathGo_master byId hkc (byId.length + 1)
    field paths byId updated hupd hmem rfl
  refine ⟨hkeys, ?_, ?_⟩
  · intro kv hkv
    rcases hQ kv hkv with hm | ⟨hs, _⟩
    · exact Or.inl hm
    · exact Or.inr hs
  · intro kv hkv hnot
    rcases hQ kv hkv with hm | ⟨_, hq⟩
    · exact absurd hm hnot
    · exact hq

/-! ## Claim theorems -/

/-- C3: for `{target: {type: keyword}, link: {type: alias, path:
'target'}}`, after `normalize` the aliases map entry for `target`'s id
contains `link`'s id, `link`'s normalized `source.path` equals `target`'s
id, and after `deNormalize`, `link`'s `path` equals the dotted string
`'target'` again.  (`link` sorts first, so it receives the first id.) -/
theorem aliasResolution_example :
    (normalize exAlias).aliases = [(mkId 1, [mkId 0])] ∧
    (fieldAtPath (normalize exAlias) ["link"]).map (fun f => f.id) =
      some (mkId 0) ∧
    (fieldAtPath (normalize exAlias) ["target"]).map (fun f => f.id) =
      some (mkId 1) ∧
    (fieldAtPath (normalize exAlias) ["link"]).map (fun f => f.source.path) =
      some (some (mkId 1)) ∧
    (match deNormalize (normalize exAlias) with
     | .ok fs => (olookup fs "link").map FieldSrc.path
     | _ => none) = some (some "target") := by
  decide

/-- C1 (counterexample): on `{a: {properties: {b: {type: text}}}}` the
round trip adds the inferred `type: 'object'` to `a`, so the result is
not the input modulo sibling reordering (the input is already sorted). -/
theorem roundTrip_counterexample :
    deNormalize (normalize exInferredType) =
      JsResult.ok [("a", .mk (some "object") none
        (some [("b", .mk (some "text") none none none [])]) none [])] ∧
    sortTree exInferredType = exInferredType ∧
    (match deNormalize (normalize exInferredType) with
     | .ok fs => (olookup fs "a").map FieldSrc.type
     | _ => none) = some (some "object") ∧
    (olookup exInferredType "a").map FieldSrc.type = some none ∧
    deNormalize (normalize exInferredType) ≠
      JsResult.ok (sortTree exInferredType) := by
  refine ⟨rfl, rfl, by decide, by decide, ?_⟩
  intro h
  rw [show sortTree exInferredType = exInferredType from rfl] at h
  have h2 := congrArg
    (fun r => match r with
      | JsResult.ok fs => (olookup fs "a").map FieldSrc.type
      | _ => none) h
  exact absurd h2 (by decide)

/-- C2 (counterexample): in `exDepthMulti` (the spec's depth example with
a `keyword` multi-field `kw` under `c`), the multi-field child `kw` gets
`nestedDepth` 3 — not 2 as the claim states — because the recursion into
a multi-field container also increments the depth
(`canHaveChildFields || canHaveMultiFields`); `maxNestedDepth` becomes 3
as well, while `c` itself keeps depth 2. -/
theorem nestedDepth_multiField_counterexample :
    (fieldAtPath (normalize exDepthMulti) ["a", "b", "c", "kw"]).map
        (fun f => (f.isMultiField, f.nestedDepth)) = some (true, 3) ∧
    (normalize exDepthMulti).maxNestedDepth = 3 ∧
    (fieldAtPath (normalize exDepthMulti) ["a", "b", "c"]).map
        (fun f => f.nestedDepth) = some 2 := by
  decide

/-- C2 (amended): `normalize` gives every non-root field a `nestedDepth`
of exactly its parent's plus one — for object/nested containers *and*
multi-field containers alike, since the recursion only fires when one of
the capability flags is set and then always increments.  On the spec's
example `maxNestedDepth` is 2 and `c` has depth 2, but a multi-field
child under `c` gets depth 3, not 2. -/
theorem nestedDepth_always_increments :
    (∀ m i f j p, olookup (normalize m).byId i = some f →
       f.parentId = some j → olookup (normalize m).byId j = some p →
       f.nestedDepth = p.nestedDepth + 1) ∧
    (normalize exDepth).maxNestedDepth = 2 ∧
    (fieldAtPath (normalize exDepth) ["a", "b", "c"]).map
      (fun f => f.nestedDepth) = some 2 ∧
    (fieldAtPath (normalize exDepthMulti) ["a", "b", "c", "kw"]).map
      (fun f => f.nestedDepth) = some 3 := by
  refine ⟨?_, by decide, by decide, by decide⟩
  intro m i f j p hi hpar hj
  obtain ⟨hnodup, hids, hrel⟩ := normalizePre_spec m
  have hbyid : (normalize m).byId =
      (replaceAliasPathByAliasId (normalizePre m).1).2 := rfl
  rw [hbyid] at hi hj
  rcases pass1_lookup hnodup hi with ⟨f0, hf0, heqf⟩
  rcases pass1_lookup hnodup hj with ⟨p0, hp0, heqp⟩
  have hcompf := eqUpToSourcePath_components heqf
  have hcompp := eqUpToSourcePath_components heqp
  have hmemf := olookup_eq_some_mem hf0
  have hparent0 : f0.parentId = some j := by
    rw [← hcompf.2.1]
    exact hpar
  rcases hrel (i, f0) hmemf with ⟨hnone, _⟩ | ⟨kv', hkv', hpp, hdd⟩
  · rw [show ((i, f0).2.parentId) = f0.parentId from rfl] at hnone
    rw [hparent0] at hnone
    exact absurd hnone (by simp)
  · have hj' : kv'.1 = j := by
      rw [show ((i, f0).2.parentId) = f0.parentId from rfl, hparent0]
        at hpp
      exact (Option.some.injEq _ _ ▸ hpp).symm
    have hlook' : olookup (normalizePre m).1 j = some kv'.2 := by
      rw [← hj']
      exact olookup_of_mem_nodup hnodup (by cases kv'; exact hkv')
    have hp0' : p0 = kv'.2 := by
      rw [hp0] at hlook'
      exact Option.some.injEq _ _ ▸ hlook'
    rw [hcompf.2.2.1, hcompp.2.2.1, hp0']
    exact hdd

/-- C2 (witness): the amended depth law applied to the `c`/`b` entries of
the normalized spec example (depth 2 = 1 + 1). -/
theorem nestedDepth_always_increments_witness :
    cNormalized.nestedDepth = bNormalized.nestedDepth + 1 :=
  nestedDepth_always_increments.1 exDepth (mkId 2) cNormalized (mkId 1)
    bNormalized rfl rfl rfl

/-- C4: an alias field whose declared dotted path matches no field's
reconstructed position path is left untouched by `normalize` (which, as a
total function of the input, raises no error): its entry — in particular
its original `source.path` string — survives unchanged into the result,
and no entry of the `aliases` map references its id.  Concretely, for
`{link: {type: alias, path: 'missing'}}` the `aliases` map is empty and
`link` keeps `source.path = 'missing'`. -/
theorem unresolvedAlias_preserved :
    (∀ m i f, olookup (normalizePre m).1 i = some f →
       f.source.type = some "alias" →
       (∀ kv ∈ (normalizePre m).1,
         f.source.path ≠ some (joinPath kv.2.path)) →
       olookup (normalize m).byId i = some f ∧
       ∀ t lst, olookup (normalize m).aliases t = some lst → i ∉ lst) ∧
    (normalize exMissingAlias).aliases = [] ∧
    (fieldAtPath (normalize exMissingAlias) ["link"]).map
      (fun f => f.source.path) = some (some "missing") := by
  refine ⟨?_, by decide, by decide⟩
  intro m i f hf _ hnomatch
  exact pass1_unresolved (normalizePre m).1 i f hf hnomatch

/-- C4 (witness): the preservation applied to the concrete unresolved
alias input (all hypotheses discharged by computation). -/
theorem unresolvedAlias_preserved_witness :
    olookup (normalize exMissingAlias).byId (mkId 0) =
      some linkNormalized :=
  (unresolvedAlias_preserved.1 exMissingAlias (mkId 0) linkNormalized
    rfl rfl (by decide)).1

/-- C5 (counterexample): a string that is neither a known main type nor a
known sub-type does not raise: the `?? 'other'` fallback makes the
throwing branch unreachable, and the call returns
`{mainType: 'other', subType: s}`. -/
theorem getTypeMetaFromSource_unknown_counterexample :
    getTypeMetaFromSource "definitely_unknown" =
      Except.ok { mainType := "other", subType := some "definitely_unknown" } := by
  rfl

/-- C5 (amended): known main types come back as `{mainType}`, known
sub-types as `{mainType, subType}`, and a string that is neither does not
raise but yields `{mainType: 'other', subType: s}` (the throwing branch
would require the registry to map a sub-type to the empty string). -/
theorem getTypeMetaFromSource_amended :
    (∀ s, s ∈ MAIN_DATA_TYPE_DEFINITION →
       getTypeMetaFromSource s = .ok { mainType := s, subType := none }) ∧
    (∀ p, p ∈ SUB_TYPE_MAP_TO_MAIN →
       getTypeMetaFromSource p.1 =
         .ok { mainType := p.2, subType := some p.1 }) ∧
    (∀ s, MAIN_DATA_TYPE_DEFINITION.contains s = false →
       olookup SUB_TYPE_MAP_TO_MAIN s = none →
       getTypeMetaFromSource s =
         .ok { mainType := "other", subType := some s }) := by
  refine ⟨?_, ?_, ?_⟩
  · intro s hs
    fin_cases hs <;> rfl
  · intro p hp
    fin_cases hp <;> rfl
  · intro s h1 h2
    have h1' : s ∉ MAIN_DATA_TYPE_DEFINITION := by simpa using h1
    simp [getTypeMetaFromSource, getMainTypeFromSubType, h1', h2]

/-- C5 (witness): the amended theorem applied to a known main type, a
known sub-type, and an unknown string. -/
theorem getTypeMetaFromSource_amended_witness :
    getTypeMetaFromSource "keyword" =
      .ok { mainType := "keyword", subType := none } ∧
    getTypeMetaFromSource "float" =
      .ok { mainType := "numeric", subType := some "float" } ∧
    getTypeMetaFromSource "made_up_type" =
      .ok { mainType := "other", subType := some "made_up_type" } :=
  ⟨getTypeMetaFromSource_amended.1 "keyword" (by decide),
   getTypeMetaFromSource_amended.2.1 ("float", "numeric") (by decide),
   getTypeMetaFromSource_amended.2.2 "made_up_type" (by decide) (by decide)⟩

/-- C6 (counterexample): with no sub-property argument, an unregistered
parameter name does not raise — the optional chaining returns the empty
configuration. -/
theorem getFieldConfig_unknownParam_counterexample :
    getFieldConfig "unknown_param" none = Except.ok {} := by
  rfl

/-- C6 (amended): registered lookups return the registered configuration
(or the empty one when none is recorded); with a sub-property argument an
unregistered parameter raises a `TypeError` and a registered parameter
with a missing `props` table or missing prop raises the descriptive error
carrying both names; without a sub-property an unregistered parameter
returns the empty configuration instead of raising. -/
theorem getFieldConfig_amended :
    (∀ param d, olookup PARAMETERS_DEFINITION param = some d →
       getFieldConfig param none = .ok (d.fieldConfig.getD {})) ∧
    (∀ param, olookup PARAMETERS_DEFINITION param = none →
       getFieldConfig param none = .ok {}) ∧
    (∀ param p, olookup PARAMETERS_DEFINITION param = none →
       getFieldConfig param (some p) = .error .typeError) ∧
    (∀ param d p, olookup PARAMETERS_DEFINITION param = some d →
       d.props = none →
       getFieldConfig param (some p) =
         .error (.error ("No field config found for prop \"" ++ p ++
           "\" on param \"" ++ param ++ "\" "))) ∧
    (∀ param d props p, olookup PARAMETERS_DEFINITION param = some d →
       d.props = some props → olookup props p = none →
       getFieldConfig param (some p) =
         .error (.error ("No field config found for prop \"" ++ p ++
           "\" on param \"" ++ param ++ "\" "))) ∧
    (∀ param d props pd p, olookup PARAMETERS_DEFINITION param = some d →
       d.props = some props → olookup props p = some pd →
       getFieldConfig param (some p) = .ok (pd.fieldConfig.getD {})) := by
  refine ⟨?_, ?_, ?_, ?_, ?_, ?_⟩
  · intro param d h; simp [getFieldConfig, h]
  · intro param h; simp [getFieldConfig, h]
  · intro param p h; simp [getFieldConfig, h]
  · intro param d p h hp; simp [getFieldConfig, h, hp]
  · intro param d props p h hp hq; simp [getFieldConfig, h, hp, hq]
  · intro param d props pd p h hp hq; simp [getFieldConfig, h, hp, hq]

/-- C6 (witness): the amended theorem applied to a registered
(param, prop) pair, an unknown parameter with a prop (TypeError), a
registered parameter with a missing prop (descriptive error), and an
unknown parameter without a prop (empty config, no error). -/
theorem getFieldConfig_amended_witness :
    getFieldConfig "analyzer" (some "search_quote_analyzer") =
      .ok { label := "Search quote analyzer" } ∧
    getFieldConfig "no_such_param" (some "x") = .error .typeError ∧
    getFieldConfig "analyzer" (some "missing_prop") =
      .error (.error ("No field config found for prop \"missing_prop\"" ++
        " on param \"analyzer\" ")) ∧
    getFieldConfig "no_such_param" none = .ok {} :=
  ⟨getFieldConfig_amended.2.2.2.2.2 "analyzer"
      { fieldConfig := some { label := "Analyzer" }
        props := some
          [("search_quote_analyzer",
            { fieldConfig := some { label := "Search quote analyzer" } }),
           ("unconfigured_prop", { fieldConfig := none })] }
      [("search_quote_analyzer",
        { fieldConfig := some { label := "Search quote analyzer" } }),
       ("unconfigured_prop", { fieldConfig := none })]
      { fieldConfig := some { label := "Search quote analyzer" } }
      "search_quote_analyzer" rfl rfl rfl,
   getFieldConfig_amended.2.2.1 "no_such_param" "x" rfl,
   getFieldConfig_amended.2.2.2.2.1 "analyzer"
      { fieldConfig := some { label := "Analyzer" }
        props := some
          [("search_quote_analyzer",
            { fieldConfig := some { label := "Search quote analyzer" } }),
           ("unconfigured_prop", { fieldConfig := none })] }
      [("search_quote_analyzer",
        { fieldConfig := some { label := "Search quote analyzer" } }),
       ("unconfigured_prop", { fieldConfig := none })]
      "missing_prop" rfl rfl rfl,
   getFieldConfig_amended.2.1 "no_such_param" rfl⟩

/-- C7 (counterexample): `getAllChildFields` does not skip a dangling
child id: it recurses into the missing lookup result, which is a runtime
`TypeError`, not a normal return. -/
theorem getAllChildFields_dangling_counterexample :
    getAllChildFields danglingChildField danglingChildById =
      JsResult.typeError := by
  decide

/-- C9 (counterexample): with a dangling `parentId`, the initial
`byId[field.parentId].path` read throws a `TypeError` — the function does
not return a map for every field and map. -/
theorem updatePath_dangling_counterexample :
    updateFieldsPathAfterFieldNameChange danglingParentField
      danglingParentById = JsResult.typeError := by
  decide

/-- C7 (amended): `getAllDescendantAliases` and `getFieldAncestors`
tolerate dangling ids — the former skips them (and never raises), the
latter stops its walk at one (and never raises once the starting id
resolves); `getAllChildFields`, however, has no guard: whenever the flags
announce children and a listed child id is dangling, it raises a
`TypeError` instead of returning a list.  Concretely, both tolerant
helpers return normally on maps with dangling references. -/
theorem traversal_dangling_amended :
    (∀ fields fuel f acc,
       getAllDescendantAliasesGo fields fuel f acc ≠ JsResult.typeError) ∧
    (∀ byId fieldId f, olookup byId fieldId = some f →
       getFieldAncestors fieldId byId ≠ JsResult.typeError) ∧
    (∀ byId fuel f dest cids id,
       (f.hasChildFields || f.hasMultiFields) = true →
       f.childFields = some cids → id ∈ cids → olookup byId id = none →
       ∀ l, getAllChildFieldsGo byId (fuel + 1) f dest ≠ JsResult.ok l) ∧
    getAllDescendantAliases danglingChildField danglingChildFields =
      JsResult.ok [] ∧
    getFieldAncestors "leaf" danglingParentById = JsResult.ok [] := by
  have hgada : ∀ fields fuel f acc,
      getAllDescendantAliasesGo fields fuel f acc ≠ JsResult.typeError := by
    intro fields fuel
    induction fuel with
    | zero => intro f acc; simp [getAllDescendantAliasesGo]
    | succ fuel ih =>
      intro f acc
      simp only [getAllDescendantAliasesGo]
      split
      · simp
      · split
        · simp
        · refine foldl_induct (C := fun r => r ≠ JsResult.typeError)
            _ _ _ (by simp) ?_
          intro a x ha hx
          cases a with
          | ok acc' =>
            cases hcase : olookup fields.byId x with
            | none => simp
            | some child => exact ih child acc'
          | typeError => exact absurd rfl ha
          | outOfFuel => simp
  have hgfa : ∀ byId fuel parent anc,
      getFieldAncestorsGo byId fuel parent anc ≠ JsResult.typeError := by
    intro byId fuel
    induction fuel with
    | zero => intro parent anc; simp [getFieldAncestorsGo]
    | succ fuel ih =>
      intro parent anc
      cases parent with
      | none => simp [getFieldAncestorsGo]
      | some p => exact ih _ _
  refine ⟨hgada, ?_, ?_, ?_, ?_⟩
  · intro byId fieldId f h
    rw [getFieldAncestors, h]
    exact hgfa byId _ _ _
  · intro byId fuel f dest cids id hflags hchild hmem hdangling l
    simp only [getAllChildFieldsGo, hflags, hchild, if_true]
    refine foldl_jsresult_stuck _ _ _ (fun x => rfl) (fun x => rfl) ?_ l
    refine ⟨id, hmem, ?_⟩
    intro a
    simp [hdangling]
  · rfl
  · rfl

/-- C7 (witness): the tolerant helpers applied at concrete dangling maps
(`getFieldAncestors` with its start-id hypothesis discharged), and the
`getAllChildFields` failure instantiated at the dangling-child map. -/
theorem traversal_dangling_amended_witness :
    getFieldAncestors "leaf" danglingParentById ≠ JsResult.typeError ∧
    getAllChildFieldsGo danglingChildById 2 danglingChildField [] ≠
      JsResult.ok [] ∧
    getAllDescendantAliasesGo danglingChildFields 3 danglingChildField [] ≠
      JsResult.typeError :=
  ⟨traversal_dangling_amended.2.1 danglingParentById "leaf"
      danglingParentField rfl,
   traversal_dangling_amended.2.2.1 danglingChildById 1 danglingChildField
      [] ["ghost"] "ghost" rfl rfl (List.mem_cons_self _ _) rfl [],
   traversal_dangling_amended.1 danglingChildFields 3 danglingChildField []⟩

/-- C10: `getFieldMeta` with `isMultiField = true` reports every
capability and presence flag false, so `normalize` never recurses into a
multi-field's own nested children: every normalized field with
`isMultiField = true` carries no `childFields` array — multi-field
nesting is at most one level deep. -/
theorem multiField_no_children :
    (∀ f, (getFieldMeta f true).canHaveChildFields = false ∧
       (getFieldMeta f true).hasChildFields = false ∧
       (getFieldMeta f true).canHaveMultiFields = false ∧
       (getFieldMeta f true).hasMultiFields = false) ∧
    (∀ m kv, kv ∈ (normalize m).byId → kv.2.isMultiField = true →
       kv.2.childFields = none) := by
  constructor
  · intro f
    have h := getFieldMeta_multiField f
    exact ⟨h.1, h.2.1, h.2.2.1, h.2.2.2.1⟩
  · intro m kv hkv hmulti
    have hpre : ∀ kv0 ∈ (normalizePre m).1,
        kv0.2.isMultiField = true → kv0.2.childFields = none := by
      rw [normalizePre]
      cases hres : normGo (sizeListF m + 1) m [] [] 0 false none ⟨0, 0⟩ with
      | none => simp
      | some res =>
        obtain ⟨out, ids, g'⟩ := res
        intro kv0 hkv0
        exact normGo_multiField_inv _ _ _ _ _ _ _ _ _ _ _ hres
          (by simp) kv0 (by simpa using hkv0)
    rcases replaceAliasPathByAliasId_mem (normalizePre m).1 kv
        (by exact hkv) with ⟨kv0, hkv0, _, heq⟩
    rw [eqUpToSourcePath] at heq
    have hm : kv0.2.isMultiField = true := by rw [heq] at hmulti; exact hmulti
    have := hpre kv0 hkv0 hm
    rw [heq]
    exact this

/-- C10 (witness): the flag computation on a concrete keyword field and
the invariant applied to the `kw` multi-field entry that `normalize`
produces for `exDepthMulti`. -/
theorem multiField_no_children_witness :
    (getFieldMeta (.mk (some "keyword") none none none []) true).hasChildFields
      = false ∧
    (mkId 3, kwNormalized).2.childFields = none :=
  ⟨(multiField_no_children.1 (.mk (some "keyword") none none none [])).2.1,
   multiField_no_children.2 exDepthMulti (mkId 3, kwNormalized)
     (by decide) (by decide)⟩


/-- **C8.** normalize processes sibling field names in lexicographic sort
order rather than insertion order, so any two input objects that agree as
key-value maps (equal after recursively sorting siblings by name) produce
identical NormalizedFields — in this deterministic embedding of the id
generator the ids themselves coincide, hence so do the path-indexed views. -/
theorem normalize_deterministic (m₁ m₂ : Fields)
    (hsort : sortTree m₁ = sortTree m₂) :
    normalize m₁ = normalize m₂ := by
  obtain ⟨r₁, h₁⟩ := Option.isSome_iff_exists.mp
    (normGo_isSome (sizeListF m₁ + 1) m₁ [] [] 0 false none ⟨0, 0⟩
      (Nat.lt_succ_self _))
  obtain ⟨r₂, h₂⟩ := Option.isSome_iff_exists.mp
    (normGo_isSome (sizeListF m₂ + 1) m₂ [] [] 0 false none ⟨0, 0⟩
      (Nat.lt_succ_self _))
  have hr : r₁ = r₂ :=
    normGo_det (sizeListF m₁ + 1) (sizeListF m₂ + 1) m₁ m₂ [] [] 0 false
      none ⟨0, 0⟩ r₁ r₂ hsort h₁ h₂
  unfold normalize normalizePre
  rw [h₁, h₂, hr]

theorem normalize_deterministic_witness :
    sortTree exOrderA = sortTree exOrderB ∧
      normalize exOrderA = normalize exOrderB :=
  ⟨rfl, normalize_deterministic exOrderA exOrderB rfl⟩

/-- **C1** (amended): the round trip is the identity modulo recursive
lexicographic sibling reordering on *well-formed* trees — every node
carries an explicit type, containers sit on types admitting them, are
non-empty, mutually exclusive and free of duplicate sibling names, and
multi-field children are leaves.  (Without the explicit-type requirement
the claim is false: see the counterexample, where the inferred
`type: 'object'` is added by the round trip.) -/
theorem roundTrip_amended (m : Fields) (hWF : WFFields false m) :
    deNormalize (normalize m) = JsResult.ok (sortTree m) := by
  obtain ⟨trip, htrip⟩ := Option.isSome_iff_exists.mp
    (normGo_isSome (sizeListF m + 1) m [] [] 0 false none ⟨0, 0⟩
      (Nat.lt_succ_self _))
  obtain ⟨B, roots, g'⟩ := trip
  have hpre : normalizePre m = (B, roots, g') := by
    rw [normalizePre, htrip]
    rfl
  obtain ⟨hcnt, ⟨delta, hout, hlen, hfresh⟩, hreb⟩ :=
    normGo_rebuild (sizeListF m + 1) m [] [] 0 false none ⟨0, 0⟩ B roots g'
      htrip hWF (fun kv hkv => absurd hkv (by simp))
  have hspec := normalizePre_spec m
  rw [hpre] at hspec
  obtain ⟨hBnodup, hBkc, _⟩ := hspec
  have hM := aliasPasses_lookup (B := B) hBnodup hBkc
  have hlenB : B.length = countListF m := by
    rw [hout, List.nil_append, hlen]
  have hlen2 : (replaceAliasPathByAliasId B).2.length = B.length := by
    have hkeys := replaceAliasPathByAliasId_keys B
    have hh := congrArg List.length hkeys
    simpa using hh
  have hnorm : normalize m = {
      byId := (replaceAliasPathByAliasId B).2
      aliases := (replaceAliasPathByAliasId B).1
      rootLevelFields := roots
      maxNestedDepth := g'.maxNestedDepth } := by
    rw [normalize, hpre]
  rw [hnorm, deNormalize]
  dsimp only
  rw [hlen2, hlenB]
  exact hreb _ (fun n _ hhi => hM (mkId n)) (countListF m + 1)
    (Nat.lt_succ_self _)

theorem roundTrip_amended_witness :
    WFFields false exRoundTrip ∧
      deNormalize (normalize exRoundTrip) =
        JsResult.ok (sortTree exRoundTrip) := by
  have hwf : WFFields false exRoundTrip := by
    constructor
    · rw [namesNodup]
      decide
    · intro kv hkv
      simp only [exRoundTrip, List.mem_cons, List.not_mem_nil,
        or_false] at hkv
      rcases hkv with h | h
      · rw [h]
        refine WFField.mk false "object" none
          (some [("y", .mk (some "text") none none
             (some [("x", .mk (some "keyword") none none none [])]) []),
                 ("w", .mk (some "keyword") none none none [])]) none []
          (fun hc => nomatch hc) (fun _ => Or.inl rfl)
          (fun hc => absurd rfl hc) (by simp) (by simp) (fun _ => rfl)
          (by rw [namesNodup]; decide) (by simp [namesNodup]) ?_ ?_
        · intro kv' hkv'
          simp only [Option.getD_some, List.mem_cons, List.not_mem_nil,
            or_false] at hkv'
          rcases hkv' with h' | h'
          · rw [h']
            refine WFField.mk false "text" none none
              (some [("x", .mk (some "keyword") none none none [])]) []
              (fun hc => nomatch hc) (fun hc => absurd rfl hc)
              (fun _ => by decide) (by simp) (by simp)
              (fun hc => absurd rfl hc) (by simp [namesNodup])
              (by rw [namesNodup]; decide) ?_ ?_
            · intro kv'' hkv''
              exact absurd hkv'' (by simp)
            · intro kv'' hkv''
              simp only [Option.getD_some, List.mem_cons,
                List.not_mem_nil, or_false] at hkv''
              rw [hkv'']
              exact wf_leaf true "keyword" none []
          · rw [h']
            exact wf_leaf false "keyword" none []
        · intro kv' hkv'
          exact absurd hkv' (by simp)
      · rw [h]
        exact wf_leaf false "alias" (some "z.y") []
  exact ⟨hwf, roundTrip_amended exRoundTrip hwf⟩

/-- **C9** (amended): when the rename-propagation call *succeeds* on a
key-consistent map containing the field, it returns (without mutation —
the embedding is pure and the original map is untouched) a map with the
same keys in which every entry is an original entry or differs from an
original value (or from the passed field) only in `path`, every changed
entry's path extends the renamed field's recomputed prefix
`parentPath ++ [newName]`, and the returned path is the stored path of
the renamed field's entry.  Unconditionally the claim is false: a
dangling `parentId` (and likewise a missing `childFields` array or a
dangling child id) raises a TypeError instead of returning a map — see
the counterexample. -/
theorem updatePath_amended (field : NormalizedField) (byId : ById)
    (hkc : ∀ kv ∈ byId, kv.2.id = kv.1)
    (hmem : field.id ∈ byId.map Prod.fst)
    (rpath : List String) (updated : ById)
    (h : updateFieldsPathAfterFieldNameChange field byId =
      JsResult.ok (rpath, updated)) :
    updated.map Prod.fst = byId.map Prod.fst ∧
    (∀ kv ∈ updated, kv ∈ byId ∨
      (kv.1 = field.id ∧ kv.2 = { field with path := kv.2.path }) ∨
      ∃ f0, (kv.1, f0) ∈ byId ∧ kv.2 = { f0 with path := kv.2.path }) ∧
    (∃ f, olookup updated field.id = some f ∧ rpath = f.path) ∧
    ∃ base,
      (((field.parentId = none ∨ field.parentId = some "") ∧ base = []) ∨
       ∃ pid parent, field.parentId = some pid ∧
         olookup byId pid = some parent ∧ base = parent.path) ∧
      ∀ kv ∈ updated, kv ∉ byId →
        ∃ q, kv.2.path = base ++ [field.source.name] ++ q := by
  rw [updateFieldsPathAfterFieldNameChange] at h
  cases hp : field.parentId with
  | none =>
    rw [hp] at h
    dsimp only at h
    cases hupd : updatePathGo byId (byId.length + 1) field [] byId with
    | typeError => rw [hupd] at h; exact absurd h (by simp)
    | outOfFuel => rw [hupd] at h; exact absurd h (by simp)
    | ok updated₀ =>
      rw [hupd] at h
      dsimp only at h
      cases hfl : olookup updated₀ field.id with
      | none => rw [hfl] at h; exact absurd h (by simp)
      | some fr =>
        rw [hfl] at h
        simp only [JsResult.ok.injEq, Prod.mk.injEq] at h
        obtain ⟨h1, h2⟩ := h
        subst h2
        obtain ⟨hkeys, hframe, hpre⟩ :=
          updatePath_tail field byId hkc hmem [] updated₀ hupd
        rw [hp] at hframe
        exact ⟨hkeys, hframe, ⟨fr, hfl, h1.symm⟩,
          [], Or.inl ⟨Or.inl rfl, rfl⟩, hpre⟩
  | some pid =>
    rw [hp] at h
    dsimp only at h
    cases hpe : pid == "" with
    | true =>
      rw [if_pos hpe] at h
      dsimp only at h
      have hpid : pid = "" := by simpa using hpe
      cases hupd : updatePathGo byId (byId.length + 1) field [] byId with
      | typeError => rw [hupd] at h; exact absurd h (by simp)
      | outOfFuel => rw [hupd] at h; exact absurd h (by simp)
      | ok updated₀ =>
        rw [hupd] at h
        dsimp only at h
        cases hfl : olookup updated₀ field.id with
        | none => rw [hfl] at h; exact absurd h (by simp)
        | some fr =>
          rw [hfl] at h
          simp only [JsResult.ok.injEq, Prod.mk.injEq] at h
          obtain ⟨h1, h2⟩ := h
          subst h2
          obtain ⟨hkeys, hframe, hpre⟩ :=
            updatePath_tail field byId hkc hmem [] updated₀ hupd
          rw [hp] at hframe
          exact ⟨hkeys, hframe, ⟨fr, hfl, h1.symm⟩,
            [], Or.inl ⟨Or.inr (by rw [hpid]), rfl⟩, hpre⟩
    | false =>
      rw [if_neg (by simp [hpe])] at h
      cases hpar : olookup byId pid with
      | none => rw [hpar] at h; exact absurd h (by simp)
      | some parent =>
        rw [hpar] at h
        dsimp only at h
        cases hupd : updatePathGo byId (byId.length + 1) field
            parent.path byId with
        | typeError => rw [hupd] at h; exact absurd h (by simp)
        | outOfFuel => rw [hupd] at h; exact absurd h (by simp)
        | ok updated₀ =>
          rw [hupd] at h
          dsimp only at h
          cases hfl : olookup updated₀ field.id with
          | none => rw [hfl] at h; exact absurd h (by simp)
          | some fr =>
            rw [hfl] at h
            simp only [JsResult.ok.injEq, Prod.mk.injEq] at h
            obtain ⟨h1, h2⟩ := h
            subst h2
            obtain ⟨hkeys, hframe, hpre⟩ :=
              updatePath_tail field byId hkc hmem parent.path updated₀ hupd
            rw [hp] at hframe
            exact ⟨hkeys, hframe, ⟨fr, hfl, h1.symm⟩,
              parent.path, Or.inr ⟨pid, parent, rfl, hpar, rfl⟩, hpre⟩

theorem updatePath_amended_witness :
    updateFieldsPathAfterFieldNameChange renameField0 renameById0 =
      JsResult.ok (["neo"],
        [("_0", { renameField0 with path := ["neo"] })]) ∧
    [("_0", { renameField0 with path := ["neo"] })].map Prod.fst =
      renameById0.map Prod.fst :=
  ⟨rfl, (updatePath_amended renameField0 renameById0 (by decide) (by decide)
    ["neo"] [("_0", { renameField0 with path := ["neo"] })] rfl).1⟩

end MappingsEditor
